import Mathlib

/-
Verification development for the pyflow repository.

Part 1 embeds the data-dependence-graph container
(src/src/pyflow/analysis/ddg/graph.py) and the constraint-based call-graph
builder (src/src/pyflow/analysis/callgraph/constraint_based/builder.py),
which are present in the source tree.

Part 2 models the context-sensitive constraint-based points-to/flow engine
(canonicalizer, store graph, constraints, worklist solver, invocation
copy-down).  The implementation of that engine is not present under src/
(only its tests in src/tests/ipa/test_flow.py and package docstrings are),
so those definitions are modelled from the specification, guided by the
behaviours the tests exercise.
-/

namespace PFUtil

/-- Association-list lookup, first match wins (Python dict `.get`). -/
def alistGet {α β : Type} [DecidableEq α] : List (α × β) → α → Option β
  | [], _ => none
  | (a, b) :: t, k => if k = a then some b else alistGet t k

/-- Association-list write: replace in place when the key is present,
append at the end otherwise (Python dict assignment). -/
def alistPut {α β : Type} [DecidableEq α] : List (α × β) → α → β → List (α × β)
  | [], k, v => [(k, v)]
  | (a, b) :: t, k, v => if k = a then (k, v) :: t else (a, b) :: alistPut t k v

end PFUtil

namespace PyFlowDDG

open PFUtil

/-- Embeds DDGNode (src/src/pyflow/analysis/ddg/graph.py, lines 24-47).
The `ir_node` payload is kept as a key drawn from `Nat ⊕ Nat`: op keys on
the left, slot keys on the right, matching the two separate maps of the
graph.  The `edges_in`/`edges_out` sets are omitted: `get_or_create_*`
never touches them, and a fresh node starts with both empty.  Equality
(`DDGNode.__eq__`) compares `node_id`; here structural equality refines it. -/
structure DDGNode where
  node_id : Nat
  ir_key : Nat ⊕ Nat
  category : String
deriving DecidableEq, Repr

/-- Embeds DataDependenceGraph (src/src/pyflow/analysis/ddg/graph.py,
lines 50-78): a node list, the id counter `_id`, and the two
get-or-create memo maps (`op_node_map`, `slot_node_map`), rendered as
association lists. -/
structure DataDependenceGraph where
  nodes : List DDGNode
  idCounter : Nat
  op_node_map : List (Nat × DDGNode)
  slot_node_map : List (Nat × DDGNode)
deriving DecidableEq, Repr

def DataDependenceGraph.empty : DataDependenceGraph :=
  ⟨[], 0, [], []⟩

/-- Embeds `get_or_create_op_node` (graph.py lines 64-70): look up the memo
map; on a miss, allocate a node with the next id, append it to `nodes`
and record it in the map. -/
def DataDependenceGraph.get_or_create_op_node
    (g : DataDependenceGraph) (k : Nat) : DataDependenceGraph × DDGNode :=
  match alistGet g.op_node_map k with
  | some n => (g, n)
  | none =>
    let n : DDGNode := ⟨g.idCounter, Sum.inl k, "op"⟩
    (⟨g.nodes ++ [n], g.idCounter + 1, (k, n) :: g.op_node_map, g.slot_node_map⟩, n)

/-- Embeds `get_or_create_slot_node` (graph.py lines 72-78). -/
def DataDependenceGraph.get_or_create_slot_node
    (g : DataDependenceGraph) (k : Nat) : DataDependenceGraph × DDGNode :=
  match alistGet g.slot_node_map k with
  | some n => (g, n)
  | none =>
    let n : DDGNode := ⟨g.idCounter, Sum.inr k, "slot"⟩
    (⟨g.nodes ++ [n], g.idCounter + 1, g.op_node_map, (k, n) :: g.slot_node_map⟩, n)

/-- Runs a sequence of get-or-create calls: `Sum.inl k` is a call to
`get_or_create_op_node k`, `Sum.inr k` to `get_or_create_slot_node k`. -/
def DataDependenceGraph.runCalls
    (g : DataDependenceGraph) : List (Nat ⊕ Nat) → DataDependenceGraph
  | [] => g
  | Sum.inl k :: t => (g.get_or_create_op_node k).1.runCalls t
  | Sum.inr k :: t => (g.get_or_create_slot_node k).1.runCalls t

/-- Key-domain of each memo map matches the calls processed so far, the id
counter equals the node count, node ids are `0, 1, …, n-1` in list order,
and the node count equals the number of distinct keys processed. -/
def GraphInv (g : DataDependenceGraph) (seen : List (Nat ⊕ Nat)) : Prop :=
  g.idCounter = g.nodes.length ∧
  g.nodes.map DDGNode.node_id = List.range g.nodes.length ∧
  (∀ k, (alistGet g.op_node_map k).isSome ↔ Sum.inl k ∈ seen) ∧
  (∀ k, (alistGet g.slot_node_map k).isSome ↔ Sum.inr k ∈ seen) ∧
  g.nodes.length = seen.toFinset.card

end PyFlowDDG

namespace PyFlowCG

open PFUtil

/-- Modelled from the spec: the `CallGraph` container comes from
`pyflow.machinery.callgraph`, which is not present under src/ (only its
caller, builder.py, is).  The caller uses it through `add_node` and
`add_edge` only, so it is modelled as a node list plus an edge list where
`add_node` inserts a node once, `add_edge` records a directed edge together
with its endpoints, and nothing ever removes a node or an edge. -/
structure CallGraph where
  nodes : List String
  edges : List (String × String)
deriving DecidableEq, Repr

def CallGraph.empty : CallGraph := ⟨[], []⟩

def CallGraph.add_node (g : CallGraph) (n : String) : CallGraph :=
  if n ∈ g.nodes then g else ⟨g.nodes ++ [n], g.edges⟩

def CallGraph.add_edge (g : CallGraph) (a b : String) : CallGraph :=
  let g1 := (g.add_node a).add_node b
  if (a, b) ∈ g1.edges then g1 else ⟨g1.nodes, g1.edges ++ [(a, b)]⟩

/-- Mutations the body of `extract_call_graph_constraint` can perform on the
graph after the parse succeeds: inspection of builder.py lines 322-442 shows
the graph is touched only through `add_node` and `add_edge` calls. -/
inductive GraphOp
  | addNode (n : String)
  | addEdge (a b : String)
deriving DecidableEq, Repr

def applyGraphOp (g : CallGraph) : GraphOp → CallGraph
  | GraphOp.addNode n => g.add_node n
  | GraphOp.addEdge a b => g.add_edge a b

/-- Embeds `extract_call_graph_constraint`
(src/src/pyflow/analysis/callgraph/constraint_based/builder.py, lines
311-322): create the graph, add the "main" node, and try to parse.  Parsing
is an oracle here: `none` models a source string rejected with SyntaxError
(the `except SyntaxError: return graph` path), and `some ops` models a
parseable source whose subsequent analysis issues the graph operations
`ops` (declaration collection and the two passes only add nodes and edges). -/
def extract_call_graph_constraint (parsed : Option (List GraphOp)) : CallGraph :=
  let graph := CallGraph.empty.add_node "main"
  match parsed with
  | none => graph
  | some ops => ops.foldl applyGraphOp graph

end PyFlowCG

namespace PyFlowIPA

open PFUtil

/-- Modelled from the spec: the qualifier tag of an abstract object name
(spec §2, "native to this context" vs "down-context"; the test file uses
`qualifiers.HZ` and `qualifiers.DN`).  The implementation module
`pyflow.analysis.ipa.constraints.qualifiers` is not under src/. -/
inductive Qualifier
  | hz
  | dn
deriving DecidableEq, Repr

/-- Modelled from the spec: an AbstractObject name, identified by an
allocation-site-or-constant key plus its Qualifier (spec §3); boolean
witness objects (`allocatePyObj(True/False)` in the tests) are a separate
constant family.  Canonicalization makes structurally equal descriptors
one instance, so structural equality here is object identity.  The
implementing module `pyflow.analysis.ipa.model.objectname` is not under
src/. -/
inductive ObjName
  | const (key : String) (qual : Qualifier)
  | pyBool (b : Bool)
deriving DecidableEq, Repr

/-- Modelled from the spec: re-tagging an object "down" relative to a
callee (spec §4.4, "any object reachable across an Invocation edge is
re-tagged down relative to the callee"); boolean constants carry no
context qualifier and are unchanged. -/
def down : ObjName → ObjName
  | ObjName.const k _ => ObjName.const k Qualifier.dn
  | ObjName.pyBool b => ObjName.pyBool b

/-- Inserts an object into a value set exactly once (set-union semantics
of the canonicalized object sets; the list stays duplicate-free). -/
def valInsert (vs : List ObjName) (v : ObjName) : List ObjName :=
  if v ∈ vs then vs else vs ++ [v]

/-- Set union of value sets, keeping first-insertion order. -/
def valUnion (vs ws : List ObjName) : List ObjName :=
  ws.foldl valInsert vs

/-- Modelled from the spec: a Slot holds a monotonically growing value set
plus the may-be-uninitialized flag, called `null` in the tests (spec §3;
`pyflow.analysis.storegraph` slot nodes are not under src/).  The value
set is a duplicate-free list in insertion order. -/
structure Slot where
  values : List ObjName
  null : Bool
deriving DecidableEq, Repr

/-- Modelled from the spec: a Slot key — a local of a Context, or a field
(field-kind tag plus field-identity object) of an owner object inside a
Context (spec §3, §4.2).  Contexts are identified by a number. -/
inductive SlotKey
  | loc (ctx : Nat) (name : String)
  | fld (ctx : Nat) (owner : ObjName) (ftype : String) (fname : ObjName)
deriving DecidableEq, Repr

/-- Modelled from the spec: the constraint family of §4.3.  `copy`,
`alloc` and `ccheck` (the materialized `ConcreteCheckConstraint` of the
tests) are concrete constraints touching Slots directly; `store`, `load`
and `check` are the meta-constraints that resolve their base operand and
materialize concrete edges.  Argument order follows the test file:
`StoreConstraint(src, dst, fieldtype, fieldname)`,
`LoadConstraint(src, fieldtype, fieldname, dst)`,
`CheckConstraint(src, fieldtype, fieldname, dst)`. -/
inductive Constraint
  | copy (src dst : SlotKey)
  | alloc (obj : ObjName) (dst : SlotKey)
  | store (src dst : SlotKey) (ftype : String) (fname : SlotKey)
  | load (src : SlotKey) (ftype : String) (fname : SlotKey) (dst : SlotKey)
  | check (src : SlotKey) (ftype : String) (fname : SlotKey) (dst : SlotKey)
  | ccheck (src dst : SlotKey)
deriving DecidableEq, Repr

/-- Modelled from the spec: identity of an Invocation — caller Context,
callee Context, call-site key (spec §3; `getInvoke(None, ctx)` in the
tests passes no call site). -/
structure InvKey where
  caller : Nat
  callee : Nat
  callSite : Option Nat
deriving DecidableEq, Repr

/-- Modelled from the spec: the mutable analysis state — the store graph
of Slots keyed by canonicalized keys, the per-Context constraint lists
(kept as one list of (context, constraint) pairs), the dirty worklist of
constraint indices, and the memoized Invocations with their `objForward`
tables (spec §3, §4.2-§4.4). -/
structure EngineState where
  slots : List (SlotKey × Slot)
  constraints : List (Nat × Constraint)
  dirty : List Nat
  invokes : List (InvKey × List (ObjName × ObjName))
deriving DecidableEq

def emptyState : EngineState := ⟨[], [], [], []⟩

/-- Reads a Slot; a Slot that was never created reads as empty and
may-be-uninitialized (Slots start with `null = True`, test_flow.py line 156). -/
def getSlot (st : EngineState) (k : SlotKey) : Slot :=
  (alistGet st.slots k).getD ⟨[], true⟩

def slotVals (st : EngineState) (k : SlotKey) : List ObjName :=
  (getSlot st k).values

def slotNull (st : EngineState) (k : SlotKey) : Bool :=
  (getSlot st k).null

/-- Modelled from the spec: lazy Slot creation on first access (spec §3
lifecycle); a fresh Slot has no values and `null = true`. -/
def ensureSlot (st : EngineState) (k : SlotKey) : EngineState :=
  match alistGet st.slots k with
  | some _ => st
  | none => { st with slots := st.slots ++ [(k, ⟨[], true⟩)] }

/-- Modelled from the spec: `Slot.addValues` — union into the value set,
reporting whether anything changed (spec §4.2, drives dirtying).  Creates
the Slot if absent. -/
def addVals (st : EngineState) (k : SlotKey) (vs : List ObjName) : EngineState × Bool :=
  match alistGet st.slots k with
  | none => ({ st with slots := st.slots ++ [(k, ⟨valUnion [] vs, true⟩)] }, decide (vs ≠ []))
  | some s =>
    if vs ⊆ s.values then (st, false)
    else ({ st with slots := alistPut st.slots k ⟨valUnion s.values vs, s.null⟩ }, true)

/-- Modelled from the spec: `updateSingleValue` of the tests — add one
value to a Slot (monotone union; test testMultiTransfer shows repeated
calls accumulate). -/
def updateSingleValue (st : EngineState) (k : SlotKey) (v : ObjName) : EngineState :=
  (addVals st k [v]).1

/-- Modelled from the spec: `clearNull` / `clearUninitialized` — the
one-way true-to-false transition of the may-be-uninitialized flag
(spec §4.2); a no-op on a Slot that was never created. -/
def clearNull (st : EngineState) (k : SlotKey) : EngineState :=
  match alistGet st.slots k with
  | none => st
  | some s => { st with slots := alistPut st.slots k ⟨s.values, false⟩ }

/-- Modelled from the spec: `Context.getInvoke` is get-or-create, memoized
by (caller, callee, call site) (spec §4.4); a fresh Invocation has an
empty `objForward` table. -/
def getInvoke (st : EngineState) (ik : InvKey) : EngineState :=
  match alistGet st.invokes ik with
  | some _ => st
  | none => { st with invokes := st.invokes ++ [(ik, [])] }

def fwdTable (st : EngineState) (ik : InvKey) : List (ObjName × ObjName) :=
  (alistGet st.invokes ik).getD []

/-- Reads `I.objForward[o]`. -/
def fwdLookup (st : EngineState) (ik : InvKey) (o : ObjName) : Option ObjName :=
  alistGet (fwdTable st ik) o

/-- Records `I.objForward[o] = img` (only ever called on a miss, so the
table never holds two bindings for one key). -/
def fwdInsert (st : EngineState) (ik : InvKey) (o img : ObjName) : EngineState :=
  { st with invokes := alistPut st.invokes ik (fwdTable st ik ++ [(o, img)]) }

/-- Field Slots already materialized on `o` in the caller Context of `ik`:
their field-kind, field-identity and current value list (spec §4.4 step 3). -/
def callerFieldList (st : EngineState) (ik : InvKey) (o : ObjName) :
    List (String × ObjName × List ObjName) :=
  st.slots.filterMap (fun p =>
    match p.1 with
    | SlotKey.loc _ _ => none
    | SlotKey.fld c ow ft fn =>
      if c = ik.caller ∧ ow = o then some (ft, fn, p.2.values) else none)

/-- Modelled from the spec: `Invocation.copyDown(object)` (spec §4.4):
1. a cached `objForward` image is returned as is; 2. otherwise the
down-qualified image is recorded in `objForward`; 3. every field Slot
already materialized on the object in the caller Context is flushed — its
values, each recursively copied down, are unioned into the matching field
Slot of the image in the callee Context, creating it if necessary; 4. the
image is returned.  The `fuel` argument bounds the recursion depth (the
real recursion is bounded by the finite object universe because step 2
registers the image before step 3 descends); on exhausted fuel an object
is registered without flushing its fields. -/
def copyDownA : Nat → InvKey → EngineState → ObjName → EngineState × ObjName
  | fuel, ik, st, o =>
    match fwdLookup st ik o with
    | some img => (st, img)
    | none =>
      let img := down o
      let st1 := fwdInsert st ik o img
      match fuel with
      | 0 => (st1, img)
      | f + 1 =>
        let flds := callerFieldList st1 ik o
        let st2 := flds.foldl (fun acc fd =>
          fd.2.2.foldl (fun acc2 v =>
            let p := copyDownA f ik acc2 v
            (addVals p.1 (SlotKey.fld ik.callee img fd.1 fd.2.1) [p.2]).1) acc) st1
        (st2, img)

/-- Whether a slot key can contribute to `callerFieldList` for caller `c`:
locals never do; a field key only when its context is `c`. -/
def notCallerFld (k : SlotKey) (c : Nat) : Prop :=
  match k with
  | SlotKey.loc _ _ => True
  | SlotKey.fld c' _ _ _ => c' ≠ c

/-- Objects mentioned anywhere in the store graph (slot values, field
owners and field identities). -/
def stateUniv (st : EngineState) : Finset ObjName :=
  st.slots.foldl (fun acc p =>
    match p.1 with
    | SlotKey.loc _ _ => acc ∪ p.2.values.toFinset
    | SlotKey.fld _ ow _ fn => (acc ∪ p.2.values.toFinset) ∪ {ow, fn}) ∅

/-- Modelled from the spec: `copyDown` with enough fuel for the whole
reachable object universe of the current state. -/
def copyDown (st : EngineState) (ik : InvKey) (o : ObjName) : EngineState × ObjName :=
  copyDownA ((stateUniv st).card + 1) ik st o

/-- Modelled from the spec: the Slots a constraint `reads()` — a change to
any of them re-enqueues the constraint (spec §4.3: Copy reads its source,
Store reads value, base and field-key slots, Load and Check read base and
field-key slots, Allocate reads nothing; the materialized concrete check
reads its source field Slot). -/
def Constraint.reads : Constraint → List SlotKey
  | Constraint.copy s _ => [s]
  | Constraint.alloc _ _ => []
  | Constraint.store s b _ fn => [s, b, fn]
  | Constraint.load b _ fn _ => [b, fn]
  | Constraint.check b _ fn _ => [b, fn]
  | Constraint.ccheck s _ => [s]

/-- Modelled from the spec: classification of a base Slot's state into
boolean witness objects (spec §4.3 Check row; test checkTemplate lines
173-180: the null flag contributes `False`, a non-empty value set
contributes `True`). -/
def checkVals (s : Slot) : List ObjName :=
  (if s.null then [ObjName.pyBool false] else []) ++
    (if s.values = [] then [] else [ObjName.pyBool true])

/-- Marks the constraint at index `i` dirty unless it already is (the
dirty flag of spec §3). -/
def enqueue (st : EngineState) (i : Nat) : EngineState :=
  if i ∈ st.dirty then st else { st with dirty := st.dirty ++ [i] }

def readsAt (st : EngineState) (i : Nat) : List SlotKey :=
  match st.constraints.get? i with
  | some (_, c) => c.reads
  | none => []

/-- Modelled from the spec: when a Slot's values change, every constraint
that reads that Slot is marked dirty and enqueued (spec §4.3 worklist
loop). -/
def enqueueReaders (st : EngineState) (k : SlotKey) : EngineState :=
  (List.range st.constraints.length).foldl
    (fun acc i => if k ∈ readsAt acc i then enqueue acc i else acc) st

/-- Union values into a Slot and, when that changed the Slot, notify its
readers. -/
def addValsNotify (st : EngineState) (k : SlotKey) (vs : List ObjName) : EngineState :=
  let p := addVals st k vs
  if p.2 then enqueueReaders p.1 k else p.1

/-- Modelled from the spec: materialization of one concrete edge by a
meta-constraint, memoized — an edge equal to an already-present constraint
is not added again (spec §4.3, "memoizing already-materialized edges");
a new edge is appended and enqueued dirty. -/
def materialize1 (st : EngineState) (cc : Nat × Constraint) : EngineState :=
  if cc ∈ st.constraints then st
  else enqueue { st with constraints := st.constraints ++ [cc] } st.constraints.length

/-- Concrete Copy edges a Store constraint materializes: one per resolved
(base object, field-name object) pair, targeting the field Slot of that
object in the constraint's context. -/
def storeCands (ctx : Nat) (src : SlotKey) (ft : String) (bvals nvals : List ObjName) :
    List (Nat × Constraint) :=
  bvals.foldr (fun b acc =>
    nvals.foldr (fun nm acc2 =>
      (ctx, Constraint.copy src (SlotKey.fld ctx b ft nm)) :: acc2) acc) []

/-- Concrete Copy edges a Load constraint materializes: one per resolved
pair, sourcing the field Slot into the destination. -/
def loadCands (ctx : Nat) (dst : SlotKey) (ft : String) (bvals nvals : List ObjName) :
    List (Nat × Constraint) :=
  bvals.foldr (fun b acc =>
    nvals.foldr (fun nm acc2 =>
      (ctx, Constraint.copy (SlotKey.fld ctx b ft nm) dst) :: acc2) acc) []

/-- Concrete check edges a Check constraint materializes. -/
def checkCands (ctx : Nat) (dst : SlotKey) (ft : String) (bvals nvals : List ObjName) :
    List (Nat × Constraint) :=
  bvals.foldr (fun b acc =>
    nvals.foldr (fun nm acc2 =>
      (ctx, Constraint.ccheck (SlotKey.fld ctx b ft nm) dst) :: acc2) acc) []

/-- Modelled from the spec: one constraint-effect execution (spec §4.3
table).  Copy unions source values into the destination; Allocate inserts
the allocation site's canonical object; the concrete check writes the
boolean witness set; Store/Load/Check resolve their operands' current
object sets and materialize concrete edges. -/
def execCn (st : EngineState) (ctx : Nat) (c : Constraint) : EngineState :=
  match c with
  | Constraint.copy s d => addValsNotify st d (slotVals st s)
  | Constraint.alloc o d => addValsNotify st d [o]
  | Constraint.ccheck s d => addValsNotify st d (checkVals (getSlot st s))
  | Constraint.store s b ft fn =>
    (storeCands ctx s ft (slotVals st b) (slotVals st fn)).foldl materialize1 st
  | Constraint.load b ft fn d =>
    (loadCands ctx d ft (slotVals st b) (slotVals st fn)).foldl materialize1 st
  | Constraint.check b ft fn d =>
    (checkCands ctx d ft (slotVals st b) (slotVals st fn)).foldl materialize1 st

/-- Modelled from the spec: one worklist solver step — pop a dirty
constraint, clear its dirty flag, execute its effect (spec §4.3).  On an
empty worklist the state is returned unchanged. -/
def step (st : EngineState) : EngineState :=
  match st.dirty with
  | [] => st
  | i :: rest =>
    let st1 := { st with dirty := rest }
    match st1.constraints.get? i with
    | none => st1
    | some (ctx, c) => execCn st1 ctx c

def stepN : Nat → EngineState → EngineState
  | 0, st => st
  | m + 1, st => stepN m (step st)

/-- Modelled from the spec: constraint creation during lowering — the
constraint is appended to its Context's list and enqueued on the dirty
worklist (spec §3 lifecycle). -/
def addConstraint (st : EngineState) (ctx : Nat) (c : Constraint) : EngineState :=
  enqueue { st with constraints := st.constraints ++ [(ctx, c)] } st.constraints.length

/-- Constraints belonging to one Context, in creation order (the tests'
`context.constraints`). -/
def ctxConstraints (st : EngineState) (ctx : Nat) : List Constraint :=
  st.constraints.filterMap (fun p => if p.1 = ctx then some p.2 else none)

/-- Modelled from the spec: the Canonicalizer's interning tables (spec
§4.1) — one for abstract-object descriptors, one for (field-kind,
field-identity) keys.  Issued instances are identified by the serial
number they received when first interned, so "returns the previously
issued instance" is "returns the same serial number".  The implementing
module `pyflow.analysis.storegraph.canonicalobjects` is not under src/. -/
structure CanonState where
  objTable : List (ObjName × Nat)
  fieldTable : List ((String × ObjName) × Nat)
  nextId : Nat
deriving DecidableEq, Repr

/-- Modelled from the spec: `canonicalObject(descriptor)` — return the
previously issued instance for an equal descriptor, else allocate and
cache a new one (spec §4.1). -/
def canonicalObject (cs : CanonState) (d : ObjName) : CanonState × Nat :=
  match alistGet cs.objTable d with
  | some u => (cs, u)
  | none =>
    (⟨cs.objTable ++ [(d, cs.nextId)], cs.fieldTable, cs.nextId + 1⟩, cs.nextId)

/-- Modelled from the spec: `canonicalField(kind, identity)` (spec §4.1). -/
def canonicalField (cs : CanonState) (kind : String) (ident : ObjName) : CanonState × Nat :=
  match alistGet cs.fieldTable (kind, ident) with
  | some u => (cs, u)
  | none =>
    (⟨cs.objTable, cs.fieldTable ++ [((kind, ident), cs.nextId)], cs.nextId + 1⟩, cs.nextId)

/-- One canonicalization request, for interleaving arbitrarily many calls. -/
inductive CanonCall
  | obj (d : ObjName)
  | fieldKey (kind : String) (ident : ObjName)
deriving DecidableEq, Repr

def applyCanon (cs : CanonState) : CanonCall → CanonState
  | CanonCall.obj d => (canonicalObject cs d).1
  | CanonCall.fieldKey kind ident => (canonicalField cs kind ident).1

def runCanon (cs : CanonState) (calls : List CanonCall) : CanonState :=
  calls.foldl applyCanon cs

/-- Scenario of testNewTransfer/testOldTransfer (test_flow.py lines
203-245): a single object `o` whose field Slot `(ft, fn)` in caller
context A holds exactly `{v}`, and the Invocation A→B registered via
`getInvoke`. -/
def transferBase (A B : Nat) (cs : Option Nat) (o v : ObjName) (ft : String) (fn : ObjName) :
    EngineState :=
  getInvoke (updateSingleValue (ensureSlot emptyState (SlotKey.fld A o ft fn))
    (SlotKey.fld A o ft fn) v) ⟨A, B, cs⟩

/-- Scenario of testMultiTransfer (test_flow.py lines 247-288): contexts A
and B each own the same logical object `o`, with field value sets
`{v1, v2}` in A and `{v2, v3}` in B; both have Invocations into the shared
callee context C, where the destination field Slot is created empty. -/
def multiBase (A B C : Nat) (o v1 v2 v3 : ObjName) (ft : String) (fn : ObjName) : EngineState :=
  let kA := SlotKey.fld A o ft fn
  let kB := SlotKey.fld B o ft fn
  let kC := SlotKey.fld C (down o) ft fn
  ensureSlot (getInvoke (getInvoke
    (updateSingleValue (updateSingleValue (ensureSlot
      (updateSingleValue (updateSingleValue (ensureSlot emptyState kA) kA v1) kA v2) kB) kB v2) kB v3)
    ⟨A, C, none⟩) ⟨B, C, none⟩) kC

/-- The two copy-downs of testMultiTransfer: first A→C, then B→C; returns
the final state and the two remapped images. -/
def multiRun (A B C : Nat) (o v1 v2 v3 : ObjName) (ft : String) (fn : ObjName) :
    EngineState × ObjName × ObjName :=
  let r1 := copyDown (multiBase A B C o v1 v2 v3 ft fn) ⟨A, C, none⟩ o
  let r2 := copyDown r1.1 ⟨B, C, none⟩ o
  (r2.1, r1.2, r2.2)

/-- Scenario of testStore (test_flow.py lines 12-35): locals holding the
value, the base object and the field name, then a Store constraint added
and the worklist drained. -/
def storeScenario : EngineState :=
  let o := ObjName.const "obj" Qualifier.hz
  let n := ObjName.const "name" Qualifier.hz
  let v := ObjName.const "value" Qualifier.hz
  let l0 := SlotKey.loc 0 "0"
  let l1 := SlotKey.loc 0 "1"
  let l2 := SlotKey.loc 0 "2"
  let s1 := updateSingleValue (ensureSlot emptyState l0) l0 v
  let s2 := updateSingleValue (ensureSlot s1 l1) l1 o
  let s3 := updateSingleValue (ensureSlot s2 l2) l2 n
  stepN 6 (addConstraint s3 0 (Constraint.store l0 l1 "Attribute" l2))

/-- Store scenario with the base operand resolving to two distinct
objects: materialization must produce one Copy edge per distinct resolved
base object. -/
def storeScenario2 : EngineState :=
  let o1 := ObjName.const "obj1" Qualifier.hz
  let o2 := ObjName.const "obj2" Qualifier.hz
  let n := ObjName.const "name" Qualifier.hz
  let v := ObjName.const "value" Qualifier.hz
  let l0 := SlotKey.loc 0 "0"
  let l1 := SlotKey.loc 0 "1"
  let l2 := SlotKey.loc 0 "2"
  let s1 := updateSingleValue (ensureSlot emptyState l0) l0 v
  let s2 := updateSingleValue (updateSingleValue (ensureSlot s1 l1) l1 o1) l1 o2
  let s3 := updateSingleValue (ensureSlot s2 l2) l2 n
  stepN 8 (addConstraint s3 0 (Constraint.store l0 l1 "Attribute" l2))

/-- Scenario of testLoad (test_flow.py lines 119-143): the field Slot is
pre-populated, then a Load constraint added and the worklist drained. -/
def loadScenario : EngineState :=
  let o := ObjName.const "obj" Qualifier.hz
  let n := ObjName.const "name" Qualifier.hz
  let v := ObjName.const "value" Qualifier.hz
  let l0 := SlotKey.loc 0 "0"
  let l1 := SlotKey.loc 0 "1"
  let l2 := SlotKey.loc 0 "2"
  let fk := SlotKey.fld 0 o "Attribute" n
  let s1 := updateSingleValue (ensureSlot emptyState l0) l0 o
  let s2 := updateSingleValue (ensureSlot s1 l1) l1 n
  let s3 := ensureSlot s2 l2
  let s4 := updateSingleValue (ensureSlot s3 fk) fk v
  stepN 6 (addConstraint s4 0 (Constraint.load l0 "Attribute" l1 l2))

/-- Scenario of checkTemplate (test_flow.py lines 145-180): the base field
Slot is put in one of the four null/value classifications, then a Check
constraint added and the worklist drained. -/
def checkScenario (value null : Bool) : EngineState :=
  let o := ObjName.const "obj" Qualifier.hz
  let n := ObjName.const "name" Qualifier.hz
  let v := ObjName.const "value" Qualifier.hz
  let l0 := SlotKey.loc 0 "0"
  let l1 := SlotKey.loc 0 "1"
  let l2 := SlotKey.loc 0 "2"
  let fk := SlotKey.fld 0 o "Attribute" n
  let c1 := updateSingleValue (ensureSlot emptyState l0) l0 o
  let c2 := updateSingleValue (ensureSlot c1 l1) l1 n
  let c3 := ensureSlot c2 l2
  let c4 := ensureSlot c3 fk
  let c5 := if null then c4 else clearNull c4 fk
  let c6 := if value then updateSingleValue c5 fk v else c5
  stepN 6 (addConstraint c6 0 (Constraint.check l0 "Attribute" l1 l2))

end PyFlowIPA

namespace PyFlowIPA

open PFUtil

/-- Objects stored in a slot list. -/
def svL (l : List (SlotKey × Slot)) : Finset ObjName :=
  l.foldr (fun p acc => p.2.values.toFinset ∪ acc) ∅

/-- Objects stored in some Slot of the state. -/
def stateValues (st : EngineState) : Finset ObjName :=
  svL st.slots

/-- Keys of a slot list. -/
def kfL (l : List (SlotKey × Slot)) : Finset SlotKey :=
  l.foldr (fun p acc => insert p.1 acc) ∅

def keysF (st : EngineState) : Finset SlotKey :=
  kfL st.slots

/-- Allocation-site objects of the Allocate constraints of a constraint list. -/
def allocObjs (cs : List (Nat × Constraint)) : Finset ObjName :=
  cs.foldr (fun p acc =>
    match p.2 with
    | Constraint.alloc o _ => insert o acc
    | _ => acc) ∅

/-- The value universe of a state: every object an effect can ever write is
already a slot value, an allocation-site object, or a boolean witness. -/
def univU (st : EngineState) : Finset ObjName :=
  stateValues st ∪ allocObjs st.constraints ∪ {ObjName.pyBool true, ObjName.pyBool false}

/-- The Slot a constraint's effect writes to (and hence may create):
Store itself writes no concrete Slot directly. -/
def dstOf : Constraint → Option SlotKey
  | Constraint.copy _ d => some d
  | Constraint.alloc _ d => some d
  | Constraint.ccheck _ d => some d
  | Constraint.load _ _ _ d => some d
  | Constraint.check _ _ _ d => some d
  | Constraint.store _ _ _ _ => none

/-- Destination keys of the constraints of a list. -/
def dstKeys (cs : List (Nat × Constraint)) : Finset SlotKey :=
  cs.foldr (fun p acc =>
    match dstOf p.2 with
    | some d => insert d acc
    | none => acc) ∅

/-- Field-slot keys a meta-constraint in context `ctx` with field kind `ft`
can ever name over the value universe `U`. -/
def fldCandsOf (ctx : Nat) (ft : String) (U : Finset ObjName) : Finset SlotKey :=
  (U ×ˢ U).image (fun bn => SlotKey.fld ctx bn.1 ft bn.2)

/-- Field-slot keys one constraint can materialize edges onto. -/
def fldKeysOf (p : Nat × Constraint) (U : Finset ObjName) : Finset SlotKey :=
  match p.2 with
  | Constraint.store _ _ ft _ => fldCandsOf p.1 ft U
  | Constraint.load _ ft _ _ => fldCandsOf p.1 ft U
  | Constraint.check _ ft _ _ => fldCandsOf p.1 ft U
  | _ => ∅

def metaFldKeys (cs : List (Nat × Constraint)) (U : Finset ObjName) : Finset SlotKey :=
  cs.foldr (fun p acc => fldKeysOf p U ∪ acc) ∅

/-- The slot-key universe of a state: every Slot an effect can ever create
has its key here. -/
def univKS (st : EngineState) : Finset SlotKey :=
  dstKeys st.constraints ∪ metaFldKeys st.constraints (univU st) ∪ keysF st

/-- Concrete edges one constraint can ever materialize over universe `U`. -/
def candsOf (p : Nat × Constraint) (U : Finset ObjName) : Finset (Nat × Constraint) :=
  match p.2 with
  | Constraint.store src _ ft _ =>
    (U ×ˢ U).image (fun bn => (p.1, Constraint.copy src (SlotKey.fld p.1 bn.1 ft bn.2)))
  | Constraint.load _ ft _ d =>
    (U ×ˢ U).image (fun bn => (p.1, Constraint.copy (SlotKey.fld p.1 bn.1 ft bn.2) d))
  | Constraint.check _ ft _ d =>
    (U ×ˢ U).image (fun bn => (p.1, Constraint.ccheck (SlotKey.fld p.1 bn.1 ft bn.2) d))
  | _ => ∅

def candsCS (st : EngineState) : Finset (Nat × Constraint) :=
  st.constraints.foldr (fun p acc => candsOf p (univU st) ∪ acc) ∅

/-- Contribution of one slot key to the progress measure: present slots
count one plus their number of distinct values. -/
def weight (st : EngineState) (k : SlotKey) : Nat :=
  match alistGet st.slots k with
  | some s => 1 + s.values.toFinset.card
  | none => 0

/-- Remaining slot-growth slack. -/
def wslack (st : EngineState) : Nat :=
  (univKS st).card * ((univU st).card + 2) - (univKS st).sum (weight st)

/-- The termination measure of the worklist solver: lexicographically, the
number of not-yet-materialized concrete edges, the remaining slot-growth
slack, and the dirty-queue length. -/
def solverMu (st : EngineState) : Nat ×ₗ (Nat ×ₗ Nat) :=
  toLex ((candsCS st \ st.constraints.toFinset).card,
    toLex (wslack st, st.dirty.length))

/-- Modelled from the spec: a constraint is satisfied when its effect can
add nothing new — Copy when the source values are already in the
destination, Allocate when the site object is present, the concrete check
when the classification witnesses are present, and a meta-constraint when
every concrete edge over its currently resolved operands is already
materialized (spec §4.3: a constraint with no new inputs produces no new
effect). -/
def Sat (st : EngineState) : Nat × Constraint → Prop
  | (_, Constraint.copy s d) => slotVals st s ⊆ slotVals st d
  | (_, Constraint.alloc o d) => o ∈ slotVals st d
  | (_, Constraint.ccheck s d) => checkVals (getSlot st s) ⊆ slotVals st d
  | (ctx, Constraint.store s b ft fn) =>
    ∀ cc ∈ storeCands ctx s ft (slotVals st b) (slotVals st fn), cc ∈ st.constraints
  | (ctx, Constraint.load b ft fn d) =>
    ∀ cc ∈ loadCands ctx d ft (slotVals st b) (slotVals st fn), cc ∈ st.constraints
  | (ctx, Constraint.check b ft fn d) =>
    ∀ cc ∈ checkCands ctx d ft (slotVals st b) (slotVals st fn), cc ∈ st.constraints

/-- The worklist invariant: every constraint that is not on the dirty queue
is satisfied. -/
def SatInv (st : EngineState) : Prop :=
  ∀ j p, st.constraints.get? j = some p → j ∉ st.dirty → Sat st p

/-- Modelled from the spec: re-marking a fixpoint state's constraints dirty
(the "re-run the solver" experiment of the termination spec). -/
def redirty (st : EngineState) (d : List Nat) : EngineState :=
  { st with dirty := d }

/-- Modelled from the spec: lowering a finite input operation sequence —
each operation adds one constraint to its Context, enqueued dirty. -/
def buildInput (ops : List (Nat × Constraint)) : EngineState :=
  ops.foldl (fun st p => addConstraint st p.1 p.2) ⟨[], [], [], []⟩

end PyFlowIPA

/-
THEOREMS.  Everything below this point states and proves properties of the
definitions above.
-/

namespace PFUtil

theorem alistGet_put_same {α β : Type} [DecidableEq α] (l : List (α × β)) (k : α) (v : β) :
    alistGet (alistPut l k v) k = some v := by
  induction l with
  | nil => simp [alistGet, alistPut]
  | cons p t ih =>
    by_cases hk : k = p.1
    · simp [alistGet, alistPut, hk]
    · simp [alistGet, alistPut, hk, ih]

theorem alistGet_put_other {α β : Type} [DecidableEq α] (l : List (α × β)) (k k' : α) (v : β)
    (h : k' ≠ k) : alistGet (alistPut l k v) k' = alistGet l k' := by
  induction l with
  | nil => simp [alistGet, alistPut, h]
  | cons p t ih =>
    by_cases hk : k = p.1
    · subst hk
      simp [alistGet, alistPut, h]
    · by_cases hk' : k' = p.1
      · simp [alistGet, alistPut, hk, hk']
      · simp [alistGet, alistPut, hk, hk', ih]

theorem alistGet_append_left {α β : Type} [DecidableEq α] (l l' : List (α × β)) (k : α) (v : β)
    (h : alistGet l k = some v) : alistGet (l ++ l') k = some v := by
  induction l with
  | nil => simp [alistGet] at h
  | cons p t ih =>
    by_cases hk : k = p.1
    · simp [alistGet, hk] at h ⊢
      exact h
    · simp [alistGet, hk] at h ⊢
      exact ih h

theorem alistGet_append_right {α β : Type} [DecidableEq α] (l : List (α × β)) (k : α) (v : β)
    (h : alistGet l k = none) : alistGet (l ++ [(k, v)]) k = some v := by
  induction l with
  | nil => simp [alistGet]
  | cons p t ih =>
    by_cases hk : k = p.1
    · simp [alistGet, hk] at h
    · simp [alistGet, hk] at h ⊢
      exact ih h

theorem alistGet_append_single_other {α β : Type} [DecidableEq α] (l : List (α × β))
    (k k' : α) (v : β) (h : k' ≠ k) : alistGet (l ++ [(k, v)]) k' = alistGet l k' := by
  induction l with
  | nil => simp [alistGet, h]
  | cons p t ih =>
    by_cases hk : k' = p.1
    · simp [alistGet, hk]
    · simp [alistGet, hk, ih]

theorem foldl_preserve {α β : Type} (P : β → Prop) (f : β → α → β)
    (h : ∀ b a, P b → P (f b a)) :
    ∀ (l : List α) (b : β), P b → P (l.foldl f b) := by
  intro l
  induction l with
  | nil => intro b hb; exact hb
  | cons a t ih => intro b hb; exact ih _ (h b a hb)

theorem filterMap_alistPut_none {α β γ : Type} [DecidableEq α]
    (f : α × β → Option γ) (l : List (α × β)) (k : α) (v : β)
    (hf : ∀ b, f (k, b) = none) :
    (alistPut l k v).filterMap f = l.filterMap f := by
  induction l with
  | nil => simp [alistPut, hf]
  | cons p t ih =>
    by_cases hk : k = p.1
    · have hp : f p = none := by
        rw [← Prod.mk.eta (p := p), ← hk]
        exact hf p.2
      rw [alistPut, if_pos hk]
      simp [List.filterMap_cons, hf, hp]
    · rw [alistPut, if_neg hk]
      simp [List.filterMap_cons, ih]

theorem filterMap_append_single_none {α β γ : Type}
    (f : α × β → Option γ) (l : List (α × β)) (k : α) (v : β)
    (hf : ∀ b, f (k, b) = none) :
    (l ++ [(k, v)]).filterMap f = l.filterMap f := by
  rw [List.filterMap_append]
  simp [hf]

end PFUtil

namespace PyFlowDDG

open PFUtil

theorem graphInv_empty : GraphInv DataDependenceGraph.empty [] := by
  refine ⟨rfl, rfl, ?_, ?_, rfl⟩ <;> intro k <;> simp [alistGet, DataDependenceGraph.empty]

theorem graphInv_op_step (g : DataDependenceGraph) (seen : List (Nat ⊕ Nat)) (k : Nat)
    (h : GraphInv g seen) :
    GraphInv (g.get_or_create_op_node k).1 (seen ++ [Sum.inl k]) := by
  obtain ⟨h1, h2, h3, h4, h5⟩ := h
  unfold DataDependenceGraph.get_or_create_op_node
  cases hm : alistGet g.op_node_map k with
  | some n =>
    have hkseen : Sum.inl k ∈ seen := (h3 k).mp (by rw [hm]; rfl)
    refine ⟨h1, h2, ?_, ?_, ?_⟩
    · intro k'
      rw [h3 k']
      constructor
      · intro hx
        exact List.mem_append_left _ hx
      · intro hx
        rcases List.mem_append.mp hx with hx | hx
        · exact hx
        · simp only [List.mem_singleton, Sum.inl.injEq] at hx
          rw [hx]
          exact hkseen
    · intro k'
      rw [h4 k']
      simp
    · rw [h5]
      congr 1
      rw [List.toFinset_append]
      simp [hkseen]
  | none =>
    have hknot : Sum.inl k ∉ seen := by
      rw [← h3 k, hm]
      simp
    refine ⟨?_, ?_, ?_, ?_, ?_⟩
    · simp [h1]
    · simp only [List.map_append, h2, h1, List.length_append, List.map_cons, List.map_nil,
        List.length_cons, List.length_nil]
      rw [List.range_succ]
    · intro k'
      by_cases hk : k' = k
      · rw [hk]
        simp [alistGet]
      · simp only [alistGet, if_neg hk]
        rw [h3 k']
        simp [List.mem_append, hk]
    · intro k'
      rw [h4 k']
      simp
    · simp only [List.length_append, h5, List.length_cons, List.length_nil]
      rw [List.toFinset_append]
      simp [Finset.card_insert_of_not_mem, hknot]

theorem graphInv_slot_step (g : DataDependenceGraph) (seen : List (Nat ⊕ Nat)) (k : Nat)
    (h : GraphInv g seen) :
    GraphInv (g.get_or_create_slot_node k).1 (seen ++ [Sum.inr k]) := by
  obtain ⟨h1, h2, h3, h4, h5⟩ := h
  unfold DataDependenceGraph.get_or_create_slot_node
  cases hm : alistGet g.slot_node_map k with
  | some n =>
    have hkseen : Sum.inr k ∈ seen := (h4 k).mp (by rw [hm]; rfl)
    refine ⟨h1, h2, ?_, ?_, ?_⟩
    · intro k'
      rw [h3 k']
      simp
    · intro k'
      rw [h4 k']
      constructor
      · intro hx
        exact List.mem_append_left _ hx
      · intro hx
        rcases List.mem_append.mp hx with hx | hx
        · exact hx
        · simp only [List.mem_singleton, Sum.inr.injEq] at hx
          rw [hx]
          exact hkseen
    · rw [h5]
      congr 1
      rw [List.toFinset_append]
      simp [hkseen]
  | none =>
    have hknot : Sum.inr k ∉ seen := by
      rw [← h4 k, hm]
      simp
    refine ⟨?_, ?_, ?_, ?_, ?_⟩
    · simp [h1]
    · simp only [List.map_append, h2, h1, List.length_append, List.map_cons, List.map_nil,
        List.length_cons, List.length_nil]
      rw [List.range_succ]
    · intro k'
      rw [h3 k']
      simp
    · intro k'
      by_cases hk : k' = k
      · rw [hk]
        simp [alistGet]
      · simp only [alistGet, if_neg hk]
        rw [h4 k']
        simp [List.mem_append, hk]
    · simp only [List.length_append, h5, List.length_cons, List.length_nil]
      rw [List.toFinset_append]
      simp [Finset.card_insert_of_not_mem, hknot]

theorem graphInv_runCalls (cs : List (Nat ⊕ Nat)) :
    ∀ (g : DataDependenceGraph) (seen : List (Nat ⊕ Nat)), GraphInv g seen →
      GraphInv (g.runCalls cs) (seen ++ cs) := by
  induction cs with
  | nil => intro g seen h; simpa [DataDependenceGraph.runCalls] using h
  | cons c t ih =>
    intro g seen h
    cases c with
    | inl k =>
      have := ih (g.get_or_create_op_node k).1 (seen ++ [Sum.inl k]) (graphInv_op_step g seen k h)
      simpa [DataDependenceGraph.runCalls] using this
    | inr k =>
      have := ih (g.get_or_create_slot_node k).1 (seen ++ [Sum.inr k]) (graphInv_slot_step g seen k h)
      simpa [DataDependenceGraph.runCalls] using this

/-- C10: `get_or_create_op_node` and `get_or_create_slot_node` are idempotent
get-or-create operations — repeating a call with the same key returns the
identical node and leaves the graph unchanged — and on any graph built from
`empty` by a sequence of such calls, node ids are `0, 1, …, n-1` in creation
order (distinct and strictly increasing) and the node-list length equals the
number of distinct keys ever passed in. -/
theorem ddg_get_or_create_spec :
    (∀ (g : DataDependenceGraph) (k : Nat),
        (g.get_or_create_op_node k).1.get_or_create_op_node k = g.get_or_create_op_node k ∧
        (g.get_or_create_slot_node k).1.get_or_create_slot_node k = g.get_or_create_slot_node k) ∧
    (∀ cs : List (Nat ⊕ Nat),
        (DataDependenceGraph.empty.runCalls cs).nodes.map DDGNode.node_id
            = List.range (DataDependenceGraph.empty.runCalls cs).nodes.length ∧
        (DataDependenceGraph.empty.runCalls cs).nodes.length = cs.toFinset.card) := by
  constructor
  · intro g k
    constructor
    · cases hm : alistGet g.op_node_map k with
      | some n => simp [DataDependenceGraph.get_or_create_op_node, hm]
      | none => simp [DataDependenceGraph.get_or_create_op_node, hm, alistGet]
    · cases hm : alistGet g.slot_node_map k with
      | some n => simp [DataDependenceGraph.get_or_create_slot_node, hm]
      | none => simp [DataDependenceGraph.get_or_create_slot_node, hm, alistGet]
  · intro cs
    have h := graphInv_runCalls cs DataDependenceGraph.empty [] graphInv_empty
    simp only [List.nil_append] at h
    exact ⟨h.2.1, h.2.2.2.2⟩

end PyFlowDDG

namespace PyFlowCG

open PFUtil

theorem add_node_mem (g : CallGraph) (n m : String) (h : m ∈ g.nodes) :
    m ∈ (g.add_node n).nodes := by
  unfold CallGraph.add_node
  by_cases hn : n ∈ g.nodes
  · simpa [hn] using h
  · simp only [hn, if_false]
    exact List.mem_append_left _ h

theorem applyGraphOp_mem (g : CallGraph) (op : GraphOp) (m : String) (h : m ∈ g.nodes) :
    m ∈ (applyGraphOp g op).nodes := by
  cases op with
  | addNode n => exact add_node_mem g n m h
  | addEdge a b =>
    unfold applyGraphOp CallGraph.add_edge
    have h1 : m ∈ ((g.add_node a).add_node b).nodes :=
      add_node_mem _ b m (add_node_mem g a m h)
    by_cases he : (a, b) ∈ ((g.add_node a).add_node b).edges
    · simpa [he] using h1
    · simpa [he] using h1

/-- C9: `extract_call_graph_constraint` is total — a source string that fails
to parse (SyntaxError) yields a graph holding exactly the single node "main"
and no edges, and for every parseable input the returned graph contains the
"main" node, whatever graph operations the analysis body performs. -/
theorem extract_call_graph_constraint_total :
    extract_call_graph_constraint none = ⟨["main"], []⟩ ∧
    ∀ ops : List GraphOp, "main" ∈ (extract_call_graph_constraint (some ops)).nodes := by
  constructor
  · rfl
  · intro ops
    have hbase : "main" ∈ (CallGraph.empty.add_node "main").nodes := by
      simp [CallGraph.empty, CallGraph.add_node]
    exact foldl_preserve (fun g => "main" ∈ g.nodes) applyGraphOp
      (fun g op => applyGraphOp_mem g op "main") ops _ hbase

end PyFlowCG

namespace PyFlowIPA

open PFUtil

theorem addVals_invokes (st : EngineState) (k : SlotKey) (vs : List ObjName) :
    (addVals st k vs).1.invokes = st.invokes := by
  unfold addVals
  cases alistGet st.slots k with
  | none => rfl
  | some s =>
    by_cases h : vs ⊆ s.values
    · simp [h]
    · simp [h]

theorem ensureSlot_invokes (st : EngineState) (k : SlotKey) :
    (ensureSlot st k).invokes = st.invokes := by
  unfold ensureSlot
  cases alistGet st.slots k with
  | none => rfl
  | some s => rfl

theorem fwdInsert_slots (st : EngineState) (ik : InvKey) (o img : ObjName) :
    (fwdInsert st ik o img).slots = st.slots := rfl

theorem fwdLookup_insert_self (st : EngineState) (ik : InvKey) (o img : ObjName)
    (h : fwdLookup st ik o = none) :
    fwdLookup (fwdInsert st ik o img) ik o = some img := by
  unfold fwdLookup fwdInsert fwdTable at *
  simp only [alistGet_put_same, Option.getD_some]
  exact alistGet_append_right _ _ _ h

theorem fwdLookup_insert_preserve (st : EngineState) (ik : InvKey) (o img : ObjName)
    (hmiss : fwdLookup st ik o = none)
    (ik' : InvKey) (k w : ObjName) (h : fwdLookup st ik' k = some w) :
    fwdLookup (fwdInsert st ik o img) ik' k = some w := by
  unfold fwdLookup fwdInsert fwdTable at *
  by_cases hik : ik' = ik
  · subst hik
    simp only [alistGet_put_same, Option.getD_some]
    by_cases hk : k = o
    · subst hk
      rw [h] at hmiss
      exact absurd hmiss (by simp)
    · rw [alistGet_append_single_other _ _ _ _ hk]
      exact h
  · rw [alistGet_put_other _ _ _ _ hik]
    exact h

theorem copyDownA_hit (fuel : Nat) (ik : InvKey) (st : EngineState) (o img : ObjName)
    (h : fwdLookup st ik o = some img) :
    copyDownA fuel ik st o = (st, img) := by
  cases fuel with
  | zero => rw [copyDownA, h]
  | succ f => rw [copyDownA, h]

theorem copyDownA_zero_miss (ik : InvKey) (st : EngineState) (o : ObjName)
    (h : fwdLookup st ik o = none) :
    copyDownA 0 ik st o = (fwdInsert st ik o (down o), down o) := by
  rw [copyDownA, h]

theorem copyDownA_succ_miss (f : Nat) (ik : InvKey) (st : EngineState) (o : ObjName)
    (h : fwdLookup st ik o = none) :
    copyDownA (f + 1) ik st o =
      (((callerFieldList (fwdInsert st ik o (down o)) ik o).foldl (fun acc fd =>
          fd.2.2.foldl (fun acc2 v =>
            let p := copyDownA f ik acc2 v
            (addVals p.1 (SlotKey.fld ik.callee (down o) fd.1 fd.2.1) [p.2]).1) acc)
        (fwdInsert st ik o (down o))), down o) := by
  rw [copyDownA, h]

theorem copyDownA_fwd_preserve (fuel : Nat) :
    ∀ (ik : InvKey) (st : EngineState) (o : ObjName) (ik' : InvKey) (k w : ObjName),
      fwdLookup st ik' k = some w →
      fwdLookup (copyDownA fuel ik st o).1 ik' k = some w := by
  induction fuel with
  | zero =>
    intro ik st o ik' k w h
    cases hm : fwdLookup st ik o with
    | some img => rw [copyDownA_hit 0 ik st o img hm]; exact h
    | none => rw [copyDownA_zero_miss ik st o hm]; exact fwdLookup_insert_preserve st ik o _ hm ik' k w h
  | succ f ih =>
    intro ik st o ik' k w h
    cases hm : fwdLookup st ik o with
    | some img => rw [copyDownA_hit (f + 1) ik st o img hm]; exact h
    | none =>
      rw [copyDownA_succ_miss f ik st o hm]
      refine foldl_preserve (fun s => fwdLookup s ik' k = some w) _ ?_ _ _
        (fwdLookup_insert_preserve st ik o _ hm ik' k w h)
      intro b fd hb
      refine foldl_preserve (fun s => fwdLookup s ik' k = some w) _ ?_ _ _ hb
      intro b2 v hb2
      have h1 := ih ik b2 v ik' k w hb2
      show fwdLookup (addVals (copyDownA f ik b2 v).1 _ _).1 ik' k = some w
      unfold fwdLookup fwdTable
      rw [addVals_invokes]
      exact h1

theorem copyDownA_registers (fuel : Nat) (ik : InvKey) (st : EngineState) (o : ObjName) :
    fwdLookup (copyDownA fuel ik st o).1 ik o = some (copyDownA fuel ik st o).2 := by
  cases hm : fwdLookup st ik o with
  | some img => rw [copyDownA_hit fuel ik st o img hm]; exact hm
  | none =>
    cases fuel with
    | zero =>
      rw [copyDownA_zero_miss ik st o hm]
      exact fwdLookup_insert_self st ik o _ hm
    | succ f =>
      rw [copyDownA_succ_miss f ik st o hm]
      simp only
      refine foldl_preserve (fun s => fwdLookup s ik o = some (down o)) _ ?_ _ _
        (fwdLookup_insert_self st ik o _ hm)
      intro b fd hb
      refine foldl_preserve (fun s => fwdLookup s ik o = some (down o)) _ ?_ _ _ hb
      intro b2 v hb2
      have h1 := copyDownA_fwd_preserve f ik b2 v ik o (down o) hb2
      show fwdLookup (addVals (copyDownA f ik b2 v).1 _ _).1 ik o = some (down o)
      unfold fwdLookup fwdTable
      rw [addVals_invokes]
      exact h1

theorem canonicalObject_lookup (cs : CanonState) (d : ObjName) :
    alistGet (canonicalObject cs d).1.objTable d = some (canonicalObject cs d).2 := by
  unfold canonicalObject
  cases hm : alistGet cs.objTable d with
  | some u => exact hm
  | none => exact alistGet_append_right _ _ _ hm

theorem canonicalObject_of_lookup (cs : CanonState) (d : ObjName) (u : Nat)
    (h : alistGet cs.objTable d = some u) : canonicalObject cs d = (cs, u) := by
  unfold canonicalObject
  rw [h]

theorem canonicalField_lookup (cs : CanonState) (kind : String) (ident : ObjName) :
    alistGet (canonicalField cs kind ident).1.fieldTable (kind, ident)
      = some (canonicalField cs kind ident).2 := by
  unfold canonicalField
  cases hm : alistGet cs.fieldTable (kind, ident) with
  | some u => exact hm
  | none => exact alistGet_append_right _ _ _ hm

theorem canonicalField_of_lookup (cs : CanonState) (kind : String) (ident : ObjName) (u : Nat)
    (h : alistGet cs.fieldTable (kind, ident) = some u) :
    canonicalField cs kind ident = (cs, u) := by
  unfold canonicalField
  rw [h]

theorem applyCanon_obj_stable (cs : CanonState) (call : CanonCall) (d : ObjName) (u : Nat)
    (h : alistGet cs.objTable d = some u) :
    alistGet (applyCanon cs call).objTable d = some u := by
  cases call with
  | obj d' =>
    show alistGet (canonicalObject cs d').1.objTable d = some u
    unfold canonicalObject
    cases alistGet cs.objTable d' with
    | some _ => exact h
    | none => exact alistGet_append_left _ _ _ _ h
  | fieldKey kind ident =>
    show alistGet (canonicalField cs kind ident).1.objTable d = some u
    unfold canonicalField
    cases alistGet cs.fieldTable (kind, ident) with
    | some _ => exact h
    | none => exact h

theorem applyCanon_field_stable (cs : CanonState) (call : CanonCall)
    (kind : String) (ident : ObjName) (u : Nat)
    (h : alistGet cs.fieldTable (kind, ident) = some u) :
    alistGet (applyCanon cs call).fieldTable (kind, ident) = some u := by
  cases call with
  | obj d' =>
    show alistGet (canonicalObject cs d').1.fieldTable (kind, ident) = some u
    unfold canonicalObject
    cases alistGet cs.objTable d' with
    | some _ => exact h
    | none => exact h
  | fieldKey kind' ident' =>
    show alistGet (canonicalField cs kind' ident').1.fieldTable (kind, ident) = some u
    unfold canonicalField
    cases alistGet cs.fieldTable (kind', ident') with
    | some _ => exact h
    | none => exact alistGet_append_left _ _ _ _ h

/-- C7: canonicalizing get-or-create operations are identity-stable —
`canonicalObject(d)` returns the previously issued instance on every later
call with an equal descriptor, across arbitrarily many interleaved
canonicalization calls; `canonicalField(kind, identity)` likewise; and
Slot get-or-create keyed by the canonicalized key is stable: re-invocation
returns the same state and the Slot stays present. -/
theorem canonicalization_identity_stable :
    (∀ (cs : CanonState) (d : ObjName),
        canonicalObject (canonicalObject cs d).1 d = ((canonicalObject cs d).1, (canonicalObject cs d).2) ∧
        ∀ calls : List CanonCall,
          (canonicalObject (runCanon (canonicalObject cs d).1 calls) d).2
            = (canonicalObject cs d).2) ∧
    (∀ (cs : CanonState) (kind : String) (ident : ObjName),
        canonicalField (canonicalField cs kind ident).1 kind ident
            = ((canonicalField cs kind ident).1, (canonicalField cs kind ident).2) ∧
        ∀ calls : List CanonCall,
          (canonicalField (runCanon (canonicalField cs kind ident).1 calls) kind ident).2
            = (canonicalField cs kind ident).2) ∧
    (∀ (st : EngineState) (k : SlotKey),
        ensureSlot (ensureSlot st k) k = ensureSlot st k ∧
        (alistGet (ensureSlot st k).slots k).isSome = true) := by
  refine ⟨?_, ?_, ?_⟩
  · intro cs d
    constructor
    · exact canonicalObject_of_lookup _ _ _ (canonicalObject_lookup cs d)
    · intro calls
      have hstable : alistGet (runCanon (canonicalObject cs d).1 calls).objTable d
          = some (canonicalObject cs d).2 := by
        refine foldl_preserve
          (fun s => alistGet s.objTable d = some (canonicalObject cs d).2)
          applyCanon ?_ calls _ (canonicalObject_lookup cs d)
        intro b call hb
        exact applyCanon_obj_stable b call d _ hb
      rw [canonicalObject_of_lookup _ _ _ hstable]
  · intro cs kind ident
    constructor
    · exact canonicalField_of_lookup _ _ _ _ (canonicalField_lookup cs kind ident)
    · intro calls
      have hstable : alistGet (runCanon (canonicalField cs kind ident).1 calls).fieldTable
          (kind, ident) = some (canonicalField cs kind ident).2 := by
        refine foldl_preserve
          (fun s => alistGet s.fieldTable (kind, ident) = some (canonicalField cs kind ident).2)
          applyCanon ?_ calls _ (canonicalField_lookup cs kind ident)
        intro b call hb
        exact applyCanon_field_stable b call kind ident _ hb
      rw [canonicalField_of_lookup _ _ _ _ hstable]
  · intro st k
    unfold ensureSlot
    cases hm : alistGet st.slots k with
    | some s =>
      constructor
      · rw [hm]
      · rw [hm]
        rfl
    | none =>
      have hget : alistGet (st.slots ++ [(k, (⟨[], true⟩ : Slot))]) k = some ⟨[], true⟩ :=
        alistGet_append_right _ _ _ hm
      constructor
      · simp only [hget]
      · simp only [hget]
        rfl

theorem callerFieldList_fwdInsert (st : EngineState) (ik ik' : InvKey) (o img v : ObjName) :
    callerFieldList (fwdInsert st ik' o img) ik v = callerFieldList st ik v := by
  unfold callerFieldList
  rw [fwdInsert_slots]

theorem copyDownA_leaf (fuel : Nat) (ik : InvKey) (st : EngineState) (v : ObjName)
    (hmiss : fwdLookup st ik v = none)
    (hleaf : callerFieldList st ik v = []) :
    copyDownA fuel ik st v = (fwdInsert st ik v (down v), down v) := by
  cases fuel with
  | zero => rw [copyDownA_zero_miss _ _ _ hmiss]
  | succ f =>
    rw [copyDownA_succ_miss _ _ _ _ hmiss]
    rw [callerFieldList_fwdInsert, hleaf]
    rfl

theorem fwdLookup_insert_none (st : EngineState) (ik : InvKey) (o img v : ObjName)
    (h : fwdLookup st ik v = none) (hvo : v ≠ o) :
    fwdLookup (fwdInsert st ik o img) ik v = none := by
  unfold fwdLookup fwdInsert fwdTable at *
  simp only [alistGet_put_same, Option.getD_some]
  rw [alistGet_append_single_other _ _ _ _ hvo]
  exact h

/-- One-object, one-value copy-down: the generic shape shared by the two
transfer scenarios — register `o`, recursively register its field member
`v`, and union the remapped member into the image's field Slot. -/
theorem copyDownA_single (f : Nat) (ik : InvKey) (st : EngineState) (o v : ObjName)
    (ft : String) (fn : ObjName)
    (hmo : fwdLookup st ik o = none)
    (hmv : fwdLookup st ik v = none)
    (hvo : v ≠ o)
    (hflds : callerFieldList st ik o = [(ft, fn, [v])])
    (hleafv : callerFieldList st ik v = []) :
    copyDownA (f + 1) ik st o =
      ((addVals (fwdInsert (fwdInsert st ik o (down o)) ik v (down v))
          (SlotKey.fld ik.callee (down o) ft fn) [down v]).1, down o) := by
  rw [copyDownA_succ_miss _ _ _ _ hmo]
  rw [callerFieldList_fwdInsert, hflds]
  simp only [List.foldl_cons, List.foldl_nil]
  rw [copyDownA_leaf f ik _ v
    (fwdLookup_insert_none st ik o _ v hmv hvo)
    (by rw [callerFieldList_fwdInsert, hleafv])]

theorem transferBase_eq (A B : Nat) (cs : Option Nat) (o v : ObjName) (ft : String)
    (fn : ObjName) :
    transferBase A B cs o v ft fn
      = ⟨[(SlotKey.fld A o ft fn, ⟨[v], true⟩)], [], [], [(⟨A, B, cs⟩, [])]⟩ := by
  simp [transferBase, getInvoke, updateSingleValue, ensureSlot, emptyState, addVals,
    alistGet, alistPut, valUnion, valInsert, List.foldl]

theorem copyDown_transfer_new
    (A B : Nat) (cs : Option Nat) (okey vkey : String) (oq vq : Qualifier)
    (ft : String) (fn : ObjName) (hAB : A ≠ B) (hov : okey ≠ vkey) :
    let o := ObjName.const okey oq
    let v := ObjName.const vkey vq
    let ik : InvKey := ⟨A, B, cs⟩
    let kB := SlotKey.fld B (down o) ft fn
    ((copyDown (transferBase A B cs o v ft fn) ik o).2 = down o ∧
     fwdLookup (copyDown (transferBase A B cs o v ft fn) ik o).1 ik v = some (down v) ∧
     slotVals (ensureSlot (copyDown (transferBase A B cs o v ft fn) ik o).1 kB) kB
       = [down v]) := by
  intro o v ik kB
  have hvo : v ≠ o := by
    intro h
    injection h with h1 h2
    exact hov h1.symm
  have hov2 : o ≠ v := fun h => hvo h.symm
  have hBA : B ≠ A := fun h => hAB h.symm
  rw [transferBase_eq A B cs o v ft fn]
  set S : EngineState :=
    ⟨[(SlotKey.fld A o ft fn, ⟨[v], true⟩)], [], [], [(ik, [])]⟩ with hS
  have hmo : fwdLookup S ik o = none := by
    simp [hS, fwdLookup, fwdTable, alistGet]
  have hmv : fwdLookup S ik v = none := by
    simp [hS, fwdLookup, fwdTable, alistGet]
  have hflds : callerFieldList S ik o = [(ft, fn, [v])] := by
    simp [hS, callerFieldList, ik]
  have hleafv : callerFieldList S ik v = [] := by
    simp [hS, callerFieldList, ik, hov2]
  have hrun : copyDown S ik o =
      ((addVals (fwdInsert (fwdInsert S ik o (down o)) ik v (down v))
          (SlotKey.fld ik.callee (down o) ft fn) [down v]).1, down o) := by
    unfold copyDown
    exact copyDownA_single _ ik S o v ft fn hmo hmv hvo hflds hleafv
  rw [hrun]
  refine ⟨rfl, ?_, ?_⟩
  · simp [hS, fwdLookup, fwdTable, fwdInsert, addVals, alistGet, alistPut, hvo, hov2, hBA,
      valUnion, valInsert, List.foldl]
  · simp [hS, ensureSlot, slotVals, getSlot, fwdInsert, addVals, alistGet, alistPut,
      valUnion, valInsert, ik, kB, hvo, hov2, hBA, List.foldl]

theorem copyDown_transfer_old
    (A B : Nat) (cs : Option Nat) (okey vkey : String) (oq vq : Qualifier)
    (ft : String) (fn : ObjName) (hAB : A ≠ B) (hov : okey ≠ vkey) :
    let o := ObjName.const okey oq
    let v := ObjName.const vkey vq
    let ik : InvKey := ⟨A, B, cs⟩
    let kB := SlotKey.fld B (down o) ft fn
    ((copyDown (ensureSlot (transferBase A B cs o v ft fn) kB) ik o).2 = down o ∧
     fwdLookup (copyDown (ensureSlot (transferBase A B cs o v ft fn) kB) ik o).1 ik v
        = some (down v) ∧
     slotVals (copyDown (ensureSlot (transferBase A B cs o v ft fn) kB) ik o).1 kB
        = [down v]) := by
  intro o v ik kB
  have hvo : v ≠ o := by
    intro h
    injection h with h1 h2
    exact hov h1.symm
  have hov2 : o ≠ v := fun h => hvo h.symm
  have hBA : B ≠ A := fun h => hAB h.symm
  have hkBA : kB ≠ SlotKey.fld A o ft fn := by
    intro h
    injection h with h1
    exact hBA h1
  rw [transferBase_eq A B cs o v ft fn]
  have hens : ensureSlot
        (⟨[(SlotKey.fld A o ft fn, ⟨[v], true⟩)], [], [], [(ik, [])]⟩ : EngineState) kB
      = ⟨[(SlotKey.fld A o ft fn, ⟨[v], true⟩), (kB, ⟨[], true⟩)], [], [], [(ik, [])]⟩ := by
    simp [ensureSlot, alistGet, hkBA]
  rw [hens]
  set S : EngineState :=
    ⟨[(SlotKey.fld A o ft fn, ⟨[v], true⟩), (kB, ⟨[], true⟩)], [], [], [(ik, [])]⟩ with hS
  have hmo : fwdLookup S ik o = none := by
    simp [hS, fwdLookup, fwdTable, alistGet]
  have hmv : fwdLookup S ik v = none := by
    simp [hS, fwdLookup, fwdTable, alistGet]
  have hflds : callerFieldList S ik o = [(ft, fn, [v])] := by
    simp [hS, callerFieldList, ik, kB, hBA]
  have hleafv : callerFieldList S ik v = [] := by
    simp [hS, callerFieldList, ik, kB, hov2, hBA]
  have hrun : copyDown S ik o =
      ((addVals (fwdInsert (fwdInsert S ik o (down o)) ik v (down v))
          (SlotKey.fld ik.callee (down o) ft fn) [down v]).1, down o) := by
    unfold copyDown
    exact copyDownA_single _ ik S o v ft fn hmo hmv hvo hflds hleafv
  rw [hrun]
  refine ⟨rfl, ?_, ?_⟩
  · simp [hS, fwdLookup, fwdTable, fwdInsert, addVals, alistGet, alistPut, hvo, hov2, hBA,
      valUnion, valInsert, List.foldl]
  · simp [hS, slotVals, getSlot, fwdInsert, addVals, alistGet, alistPut,
      valUnion, valInsert, ik, kB, hvo, hov2, hBA, hkBA, List.foldl]

/-- C2: old/new transfer equivalence — with object `o` whose field Slot
`(ft, fn)` holds `{v}` in caller context A, and `I` the Invocation A→B,
`I.copyDown(o)` returns the down-qualified image and the corresponding
field Slot of the image in B holds exactly `{I.objForward[v]}`, whether
the destination field Slot in B is created after the call (new order) or
before it (old order). -/
theorem copyDown_old_new_transfer
    (A B : Nat) (cs : Option Nat) (okey vkey : String) (oq vq : Qualifier)
    (ft : String) (fn : ObjName) (hAB : A ≠ B) (hov : okey ≠ vkey) :
    let o := ObjName.const okey oq
    let v := ObjName.const vkey vq
    let ik : InvKey := ⟨A, B, cs⟩
    let kB := SlotKey.fld B (down o) ft fn
    (((copyDown (transferBase A B cs o v ft fn) ik o).2 = down o ∧
      fwdLookup (copyDown (transferBase A B cs o v ft fn) ik o).1 ik v = some (down v) ∧
      slotVals (ensureSlot (copyDown (transferBase A B cs o v ft fn) ik o).1 kB) kB
        = [down v]) ∧
     ((copyDown (ensureSlot (transferBase A B cs o v ft fn) kB) ik o).2 = down o ∧
      fwdLookup (copyDown (ensureSlot (transferBase A B cs o v ft fn) kB) ik o).1 ik v
        = some (down v) ∧
      slotVals (copyDown (ensureSlot (transferBase A B cs o v ft fn) kB) ik o).1 kB
        = [down v])) :=
  ⟨copyDown_transfer_new A B cs okey vkey oq vq ft fn hAB hov,
   copyDown_transfer_old A B cs okey vkey oq vq ft fn hAB hov⟩

/-- Witness for C2 at the concrete inputs of the tests. -/
theorem copyDown_old_new_transfer_witness :
    ((0 : Nat) ≠ 1 ∧ "obj" ≠ "value") ∧
    (let o := ObjName.const "obj" Qualifier.hz
     let v := ObjName.const "value" Qualifier.hz
     let ik : InvKey := ⟨0, 1, none⟩
     let kB := SlotKey.fld 1 (down o) "Attribute" (ObjName.const "name" Qualifier.hz)
     (((copyDown (transferBase 0 1 none o v "Attribute" (ObjName.const "name" Qualifier.hz))
            ik o).2 = down o ∧
       fwdLookup (copyDown (transferBase 0 1 none o v "Attribute"
            (ObjName.const "name" Qualifier.hz)) ik o).1 ik v = some (down v) ∧
       slotVals (ensureSlot (copyDown (transferBase 0 1 none o v "Attribute"
            (ObjName.const "name" Qualifier.hz)) ik o).1 kB) kB = [down v]) ∧
      ((copyDown (ensureSlot (transferBase 0 1 none o v "Attribute"
            (ObjName.const "name" Qualifier.hz)) kB) ik o).2 = down o ∧
       fwdLookup (copyDown (ensureSlot (transferBase 0 1 none o v "Attribute"
            (ObjName.const "name" Qualifier.hz)) kB) ik o).1 ik v = some (down v) ∧
       slotVals (copyDown (ensureSlot (transferBase 0 1 none o v "Attribute"
            (ObjName.const "name" Qualifier.hz)) kB) ik o).1 kB = [down v]))) :=
  ⟨⟨by decide, by decide⟩,
   copyDown_old_new_transfer 0 1 none "obj" "value" Qualifier.hz Qualifier.hz "Attribute"
     (ObjName.const "name" Qualifier.hz) (by decide) (by decide)⟩

theorem fwdLookup_addVals (st : EngineState) (k : SlotKey) (vs : List ObjName)
    (ik : InvKey) (v : ObjName) :
    fwdLookup (addVals st k vs).1 ik v = fwdLookup st ik v := by
  unfold fwdLookup fwdTable
  rw [addVals_invokes]

theorem fwdLookup_insert_diff_ik (st : EngineState) (ik : InvKey) (o img : ObjName)
    (ik' : InvKey) (v : ObjName) (hik : ik' ≠ ik) :
    fwdLookup (fwdInsert st ik o img) ik' v = fwdLookup st ik' v := by
  unfold fwdLookup fwdInsert fwdTable
  simp only
  rw [alistGet_put_other _ _ _ _ hik]

theorem fwdLookup_insert_diff_obj (st : EngineState) (ik : InvKey) (o img v : ObjName)
    (hv : v ≠ o) :
    fwdLookup (fwdInsert st ik o img) ik v = fwdLookup st ik v := by
  unfold fwdLookup fwdInsert fwdTable
  simp only [alistGet_put_same, Option.getD_some]
  rw [alistGet_append_single_other _ _ _ _ hv]

theorem slotVals_fwdInsert (st : EngineState) (ik : InvKey) (o img : ObjName) (k : SlotKey) :
    slotVals (fwdInsert st ik o img) k = slotVals st k := by
  unfold slotVals getSlot
  rw [fwdInsert_slots]

theorem callerFieldList_addVals_other (st : EngineState) (k : SlotKey) (vs : List ObjName)
    (ik : InvKey) (v : ObjName) (hk : notCallerFld k ik.caller) :
    callerFieldList (addVals st k vs).1 ik v = callerFieldList st ik v := by
  have hf : ∀ s : Slot, (fun p : SlotKey × Slot =>
      match p.1 with
      | SlotKey.loc _ _ => none
      | SlotKey.fld c ow ft fn =>
        if c = ik.caller ∧ ow = v then some (ft, fn, p.2.values) else none) (k, s) = none := by
    intro s
    cases k with
    | loc c nm => rfl
    | fld c ow ft fn =>
      have hno : ¬(c = ik.caller ∧ ow = v) := fun h => hk h.1
      show (if c = ik.caller ∧ ow = v then some (ft, fn, s.values) else none) = none
      rw [if_neg hno]
  unfold callerFieldList addVals
  cases alistGet st.slots k with
  | none =>
    dsimp only
    exact filterMap_append_single_none _ _ _ _ hf
  | some s =>
    dsimp only
    by_cases hsub : vs ⊆ s.values
    · rw [if_pos hsub]
    · rw [if_neg hsub]
      exact filterMap_alistPut_none _ _ _ _ hf

theorem valUnion_subset_noop (acc vs : List ObjName) (h : vs ⊆ acc) :
    valUnion acc vs = acc := by
  induction vs generalizing acc with
  | nil => rfl
  | cons v t ih =>
    have hv : v ∈ acc := h (List.mem_cons_self v t)
    have ht : t ⊆ acc := fun x hx => h (List.mem_cons_of_mem v hx)
    show valUnion (valInsert acc v) t = acc
    rw [valInsert, if_pos hv]
    exact ih acc ht

theorem slotVals_addVals_self (st : EngineState) (k : SlotKey) (vs : List ObjName) :
    slotVals (addVals st k vs).1 k = valUnion (slotVals st k) vs := by
  unfold addVals slotVals getSlot
  cases hm : alistGet st.slots k with
  | none =>
    dsimp only
    rw [alistGet_append_right _ _ _ hm]
    rfl
  | some s =>
    dsimp only
    by_cases hsub : vs ⊆ s.values
    · rw [if_pos hsub, hm]
      simp only [Option.getD_some]
      rw [valUnion_subset_noop _ _ hsub]
    · rw [if_neg hsub]
      dsimp only
      rw [alistGet_put_same]
      simp only [Option.getD_some]

theorem slotVals_addVals_other (st : EngineState) (k k' : SlotKey) (vs : List ObjName)
    (h : k' ≠ k) :
    slotVals (addVals st k vs).1 k' = slotVals st k' := by
  unfold addVals slotVals getSlot
  cases hm : alistGet st.slots k with
  | none =>
    dsimp only
    rw [alistGet_append_single_other _ _ _ _ h]
  | some s =>
    dsimp only
    by_cases hsub : vs ⊆ s.values
    · rw [if_pos hsub]
    · rw [if_neg hsub]
      dsimp only
      rw [alistGet_put_other _ _ _ _ h]

/-- C3: union of paths — when contexts A and B each own the same logical
object `o` with field value sets {v1, v2} and {v2, v3} and both copy it
down into the shared callee context C, the destination field Slot in C
holds the union of both remapped contributions deduplicated by canonical
identity: the list [down v1, down v2, down v3], exactly 3 distinct values
with the shared value counted once. -/
theorem copyDown_union_of_paths
    (A B C : Nat) (o v1 v2 v3 : ObjName) (ft : String) (fn : ObjName)
    (hAB : A ≠ B) (hAC : A ≠ C) (hBC : B ≠ C)
    (hv21 : v2 ≠ v1) (hv32 : v3 ≠ v2)
    (hv1o : v1 ≠ o) (hv2o : v2 ≠ o) (hv3o : v3 ≠ o)
    (hd21 : down v2 ≠ down v1) (hd31 : down v3 ≠ down v1) (hd32 : down v3 ≠ down v2) :
    (multiRun A B C o v1 v2 v3 ft fn).2.1 = down o ∧
    (multiRun A B C o v1 v2 v3 ft fn).2.2 = down o ∧
    slotVals (multiRun A B C o v1 v2 v3 ft fn).1 (SlotKey.fld C (down o) ft fn)
      = [down v1, down v2, down v3] ∧
    (slotVals (multiRun A B C o v1 v2 v3 ft fn).1
      (SlotKey.fld C (down o) ft fn)).toFinset.card = 3 := by
  have hBA : B ≠ A := fun h => hAB h.symm
  have hCA : C ≠ A := fun h => hAC h.symm
  have hCB : C ≠ B := fun h => hBC h.symm
  have hov1 : o ≠ v1 := fun h => hv1o h.symm
  have hov2 : o ≠ v2 := fun h => hv2o h.symm
  have hov3 : o ≠ v3 := fun h => hv3o h.symm
  have hikBA : (⟨B, C, none⟩ : InvKey) ≠ ⟨A, C, none⟩ := by
    intro h
    injection h with ha hb
    exact hBA ha
  have hS0 : multiBase A B C o v1 v2 v3 ft fn =
      ⟨[(SlotKey.fld A o ft fn, ⟨[v1, v2], true⟩), (SlotKey.fld B o ft fn, ⟨[v2, v3], true⟩),
        (SlotKey.fld C (down o) ft fn, ⟨[], true⟩)], [], [],
       [(⟨A, C, none⟩, []), (⟨B, C, none⟩, [])]⟩ := by
    simp [multiBase, getInvoke, updateSingleValue, ensureSlot, emptyState, addVals,
      alistGet, alistPut, valUnion, valInsert, List.foldl, hBA, hCA, hCB, hv21, hv32,
      hikBA, hAB, hAC, hBC]
  set ikAC : InvKey := (⟨A, C, none⟩ : InvKey) with hikACdef
  set ikBC : InvKey := (⟨B, C, none⟩ : InvKey) with hikBCdef
  set K : SlotKey := SlotKey.fld C (down o) ft fn with hKdef
  set S0 : EngineState :=
    ⟨[(SlotKey.fld A o ft fn, ⟨[v1, v2], true⟩), (SlotKey.fld B o ft fn, ⟨[v2, v3], true⟩),
      (K, ⟨[], true⟩)], [], [], [(ikAC, []), (ikBC, [])]⟩ with hS0def
  have hm0AC : ∀ x : ObjName, fwdLookup S0 ikAC x = none := by
    intro x
    simp [hS0def, fwdLookup, fwdTable, alistGet]
  have hm0BC : ∀ x : ObjName, fwdLookup S0 ikBC x = none := by
    intro x
    simp [hS0def, fwdLookup, fwdTable, alistGet, hikBA]
  have hfldsAC : callerFieldList S0 ikAC o = [(ft, fn, [v1, v2])] := by
    simp [hS0def, callerFieldList, hikACdef, hKdef, hBA, hCA]
  have hfldsBC : callerFieldList S0 ikBC o = [(ft, fn, [v2, v3])] := by
    simp [hS0def, callerFieldList, hikBCdef, hKdef, hAB, hCB]
  have hleafAC : ∀ x : ObjName, o ≠ x → callerFieldList S0 ikAC x = [] := by
    intro x hox
    simp [hS0def, callerFieldList, hikACdef, hKdef, hBA, hCA, hox]
  have hleafBC : ∀ x : ObjName, o ≠ x → callerFieldList S0 ikBC x = [] := by
    intro x hox
    simp [hS0def, callerFieldList, hikBCdef, hKdef, hAB, hCB, hox]
  have hKnotA : notCallerFld K A := hCA
  have hKnotB : notCallerFld K B := hCB
  have hm1 : fwdLookup (fwdInsert S0 ikAC o (down o)) ikAC v1 = none := by
    rw [fwdLookup_insert_diff_obj _ _ _ _ _ hv1o]
    exact hm0AC v1
  have hl1 : callerFieldList (fwdInsert S0 ikAC o (down o)) ikAC v1 = [] := by
    rw [callerFieldList_fwdInsert]
    exact hleafAC v1 hov1
  have hm2 : fwdLookup (addVals (fwdInsert (fwdInsert S0 ikAC o (down o)) ikAC v1 (down v1))
      K [down v1]).1 ikAC v2 = none := by
    rw [fwdLookup_addVals, fwdLookup_insert_diff_obj _ _ _ _ _ hv21,
      fwdLookup_insert_diff_obj _ _ _ _ _ hv2o]
    exact hm0AC v2
  have hl2 : callerFieldList (addVals (fwdInsert (fwdInsert S0 ikAC o (down o)) ikAC v1 (down v1))
      K [down v1]).1 ikAC v2 = [] := by
    rw [callerFieldList_addVals_other _ _ _ _ _ hKnotA, callerFieldList_fwdInsert,
      callerFieldList_fwdInsert]
    exact hleafAC v2 hov2
  have hrun1 : copyDown S0 ikAC o =
      ((addVals (fwdInsert (addVals (fwdInsert (fwdInsert S0 ikAC o (down o)) ikAC v1 (down v1))
          K [down v1]).1 ikAC v2 (down v2)) K [down v2]).1, down o) := by
    unfold copyDown
    rw [copyDownA_succ_miss _ _ _ _ (hm0AC o)]
    rw [callerFieldList_fwdInsert, hfldsAC]
    simp only [List.foldl_cons, List.foldl_nil]
    rw [copyDownA_leaf _ _ _ v1 hm1 hl1]
    dsimp only
    rw [copyDownA_leaf _ _ _ v2 hm2 hl2]
  set S1 : EngineState :=
    (addVals (fwdInsert (addVals (fwdInsert (fwdInsert S0 ikAC o (down o)) ikAC v1 (down v1))
      K [down v1]).1 ikAC v2 (down v2)) K [down v2]).1 with hS1def
  have hm0BC1 : ∀ x : ObjName, fwdLookup S1 ikBC x = none := by
    intro x
    rw [hS1def, fwdLookup_addVals, fwdLookup_insert_diff_ik _ _ _ _ _ _ hikBA,
      fwdLookup_addVals, fwdLookup_insert_diff_ik _ _ _ _ _ _ hikBA,
      fwdLookup_insert_diff_ik _ _ _ _ _ _ hikBA]
    exact hm0BC x
  have hfldsBC1 : callerFieldList S1 ikBC o = [(ft, fn, [v2, v3])] := by
    rw [hS1def, callerFieldList_addVals_other _ _ _ _ _ hKnotB, callerFieldList_fwdInsert,
      callerFieldList_addVals_other _ _ _ _ _ hKnotB, callerFieldList_fwdInsert,
      callerFieldList_fwdInsert]
    exact hfldsBC
  have hleafBC1 : ∀ x : ObjName, o ≠ x → callerFieldList S1 ikBC x = [] := by
    intro x hox
    rw [hS1def, callerFieldList_addVals_other _ _ _ _ _ hKnotB, callerFieldList_fwdInsert,
      callerFieldList_addVals_other _ _ _ _ _ hKnotB, callerFieldList_fwdInsert,
      callerFieldList_fwdInsert]
    exact hleafBC x hox
  have hm1B : fwdLookup (fwdInsert S1 ikBC o (down o)) ikBC v2 = none := by
    rw [fwdLookup_insert_diff_obj _ _ _ _ _ hv2o]
    exact hm0BC1 v2
  have hl1B : callerFieldList (fwdInsert S1 ikBC o (down o)) ikBC v2 = [] := by
    rw [callerFieldList_fwdInsert]
    exact hleafBC1 v2 hov2
  have hm2B : fwdLookup (addVals (fwdInsert (fwdInsert S1 ikBC o (down o)) ikBC v2 (down v2))
      K [down v2]).1 ikBC v3 = none := by
    rw [fwdLookup_addVals, fwdLookup_insert_diff_obj _ _ _ _ _ hv32,
      fwdLookup_insert_diff_obj _ _ _ _ _ hv3o]
    exact hm0BC1 v3
  have hl2B : callerFieldList (addVals (fwdInsert (fwdInsert S1 ikBC o (down o)) ikBC v2 (down v2))
      K [down v2]).1 ikBC v3 = [] := by
    rw [callerFieldList_addVals_other _ _ _ _ _ hKnotB, callerFieldList_fwdInsert,
      callerFieldList_fwdInsert]
    exact hleafBC1 v3 hov3
  have hrun2 : copyDown S1 ikBC o =
      ((addVals (fwdInsert (addVals (fwdInsert (fwdInsert S1 ikBC o (down o)) ikBC v2 (down v2))
          K [down v2]).1 ikBC v3 (down v3)) K [down v3]).1, down o) := by
    unfold copyDown
    rw [copyDownA_succ_miss _ _ _ _ (hm0BC1 o)]
    rw [callerFieldList_fwdInsert, hfldsBC1]
    simp only [List.foldl_cons, List.foldl_nil]
    rw [copyDownA_leaf _ _ _ v2 hm1B hl1B]
    dsimp only
    rw [copyDownA_leaf _ _ _ v3 hm2B hl2B]
  have hvS0 : slotVals S0 K = [] := by
    simp [hS0def, slotVals, getSlot, alistGet, hKdef, hCA, hCB]
  have hvS1 : slotVals S1 K = [down v1, down v2] := by
    rw [hS1def, slotVals_addVals_self, slotVals_fwdInsert, slotVals_addVals_self,
      slotVals_fwdInsert, slotVals_fwdInsert, hvS0]
    simp [valUnion, valInsert, List.foldl, hd21]
  have hrr : multiRun A B C o v1 v2 v3 ft fn =
      ((addVals (fwdInsert (addVals (fwdInsert (fwdInsert S1 ikBC o (down o)) ikBC v2 (down v2))
          K [down v2]).1 ikBC v3 (down v3)) K [down v3]).1, down o, down o) := by
    show ((copyDown (copyDown (multiBase A B C o v1 v2 v3 ft fn) ikAC o).1 ikBC o).1,
      (copyDown (multiBase A B C o v1 v2 v3 ft fn) ikAC o).2,
      (copyDown (copyDown (multiBase A B C o v1 v2 v3 ft fn) ikAC o).1 ikBC o).2) = _
    rw [hS0, hrun1]
    dsimp only
    rw [hrun2]
  rw [hrr]
  refine ⟨rfl, rfl, ?_, ?_⟩
  · show slotVals (addVals (fwdInsert (addVals (fwdInsert (fwdInsert S1 ikBC o (down o))
        ikBC v2 (down v2)) K [down v2]).1 ikBC v3 (down v3)) K [down v3]).1 K
      = [down v1, down v2, down v3]
    rw [slotVals_addVals_self, slotVals_fwdInsert, slotVals_addVals_self,
      slotVals_fwdInsert, slotVals_fwdInsert, hvS1]
    simp [valUnion, valInsert, List.foldl, hd31, hd32]
  · show (slotVals (addVals (fwdInsert (addVals (fwdInsert (fwdInsert S1 ikBC o (down o))
        ikBC v2 (down v2)) K [down v2]).1 ikBC v3 (down v3)) K [down v3]).1 K).toFinset.card = 3
    rw [slotVals_addVals_self, slotVals_fwdInsert, slotVals_addVals_self,
      slotVals_fwdInsert, slotVals_fwdInsert, hvS1]
    simp only [valUnion, valInsert, List.foldl]
    have hd12 : down v1 ≠ down v2 := fun h => hd21 h.symm
    have hd13 : down v1 ≠ down v3 := fun h => hd31 h.symm
    have hd23 : down v2 ≠ down v3 := fun h => hd32 h.symm
    simp only [List.mem_cons, List.mem_singleton, List.not_mem_nil, or_false, hd21, hd31, hd32]
    simp [hd21, hd31, hd32, List.toFinset_cons]
    rw [Finset.card_insert_of_not_mem (by simp [hd12, hd13]),
      Finset.card_insert_of_not_mem (by simp [hd23])]
    rfl

/-- Witness for C3 at the concrete inputs of the test. -/
theorem copyDown_union_of_paths_witness :
    ((0 : Nat) ≠ 1 ∧ (0 : Nat) ≠ 2 ∧ (1 : Nat) ≠ 2) ∧
    ((multiRun 0 1 2 (ObjName.const "obj" Qualifier.hz) (ObjName.const "value1" Qualifier.hz)
        (ObjName.const "value2" Qualifier.hz) (ObjName.const "value3" Qualifier.hz)
        "Attribute" (ObjName.const "name" Qualifier.hz)).2.1
        = down (ObjName.const "obj" Qualifier.hz) ∧
     (multiRun 0 1 2 (ObjName.const "obj" Qualifier.hz) (ObjName.const "value1" Qualifier.hz)
        (ObjName.const "value2" Qualifier.hz) (ObjName.const "value3" Qualifier.hz)
        "Attribute" (ObjName.const "name" Qualifier.hz)).2.2
        = down (ObjName.const "obj" Qualifier.hz) ∧
     slotVals (multiRun 0 1 2 (ObjName.const "obj" Qualifier.hz)
        (ObjName.const "value1" Qualifier.hz) (ObjName.const "value2" Qualifier.hz)
        (ObjName.const "value3" Qualifier.hz) "Attribute"
        (ObjName.const "name" Qualifier.hz)).1
        (SlotKey.fld 2 (down (ObjName.const "obj" Qualifier.hz)) "Attribute"
          (ObjName.const "name" Qualifier.hz))
        = [down (ObjName.const "value1" Qualifier.hz), down (ObjName.const "value2" Qualifier.hz),
           down (ObjName.const "value3" Qualifier.hz)] ∧
     (slotVals (multiRun 0 1 2 (ObjName.const "obj" Qualifier.hz)
        (ObjName.const "value1" Qualifier.hz) (ObjName.const "value2" Qualifier.hz)
        (ObjName.const "value3" Qualifier.hz) "Attribute"
        (ObjName.const "name" Qualifier.hz)).1
        (SlotKey.fld 2 (down (ObjName.const "obj" Qualifier.hz)) "Attribute"
          (ObjName.const "name" Qualifier.hz))).toFinset.card = 3) :=
  ⟨⟨by decide, by decide, by decide⟩,
   copyDown_union_of_paths 0 1 2 (ObjName.const "obj" Qualifier.hz)
     (ObjName.const "value1" Qualifier.hz) (ObjName.const "value2" Qualifier.hz)
     (ObjName.const "value3" Qualifier.hz) "Attribute" (ObjName.const "name" Qualifier.hz)
     (by decide) (by decide) (by decide) (by decide) (by decide) (by decide) (by decide)
     (by decide) (by decide) (by decide) (by decide)⟩

theorem slots_enqueue (st : EngineState) (i : Nat) : (enqueue st i).slots = st.slots := by
  unfold enqueue
  by_cases h : i ∈ st.dirty
  · rw [if_pos h]
  · rw [if_neg h]

theorem slots_enqueueReaders (st : EngineState) (k : SlotKey) :
    (enqueueReaders st k).slots = st.slots := by
  unfold enqueueReaders
  refine foldl_preserve (fun s : EngineState => s.slots = st.slots) _ ?_ _ _ rfl
  intro b i hb
  by_cases h : k ∈ readsAt b i
  · rw [if_pos h, slots_enqueue]
    exact hb
  · rw [if_neg h]
    exact hb

theorem slotVals_addValsNotify (st : EngineState) (k : SlotKey) (vs : List ObjName) :
    slotVals (addValsNotify st k vs) k = valUnion (slotVals st k) vs := by
  unfold addValsNotify
  by_cases h : (addVals st k vs).2
  · rw [if_pos h]
    show ((alistGet (enqueueReaders (addVals st k vs).1 k).slots k).getD ⟨[], true⟩).values
      = valUnion (slotVals st k) vs
    rw [slots_enqueueReaders]
    exact slotVals_addVals_self st k vs
  · rw [if_neg h]
    exact slotVals_addVals_self st k vs

theorem check_exec_general (st : EngineState) (ctx : Nat) (s d : SlotKey) :
    slotVals (execCn st ctx (Constraint.ccheck s d)) d
      = valUnion (slotVals st d)
          ((if (getSlot st s).null then [ObjName.pyBool false] else []) ++
           (if (getSlot st s).values = [] then [] else [ObjName.pyBool true])) := by
  show slotVals (addValsNotify st d (checkVals (getSlot st s))) d = _
  rw [slotVals_addValsNotify]
  rfl

/-- C5: Check-constraint completeness — executing a concrete check writes
into the destination exactly the boolean witness set of the source Slot's
classification (in general, as a union into the destination), and on the
checkTemplate scenario with an initially empty destination the final
destination value set is exactly {False} when only the null flag is set,
{True} when only a value is present, {True, False} when both, and empty
when neither. -/
theorem check_constraint_completeness :
    (∀ st : EngineState, ∀ ctx : Nat, ∀ s d : SlotKey,
      slotVals (execCn st ctx (Constraint.ccheck s d)) d
        = valUnion (slotVals st d)
            ((if (getSlot st s).null then [ObjName.pyBool false] else []) ++
             (if (getSlot st s).values = [] then [] else [ObjName.pyBool true]))) ∧
    (∀ value null : Bool,
      (checkScenario value null).dirty = [] ∧
      ctxConstraints (checkScenario value null) 0 =
        [Constraint.check (SlotKey.loc 0 "0") "Attribute" (SlotKey.loc 0 "1") (SlotKey.loc 0 "2"),
         Constraint.ccheck
           (SlotKey.fld 0 (ObjName.const "obj" Qualifier.hz) "Attribute"
             (ObjName.const "name" Qualifier.hz)) (SlotKey.loc 0 "2")] ∧
      slotVals (checkScenario value null) (SlotKey.loc 0 "2")
        = (if null then [ObjName.pyBool false] else []) ++
          (if value then [ObjName.pyBool true] else [])) := by
  constructor
  · exact check_exec_general
  · decide

/-- C6: Store (resp. Load) meta-constraints materialize one concrete Copy
constraint per distinct resolved base object, targeting (resp. sourcing)
the canonical field Slot, and propagate the value slot into the field Slot
(resp. the field Slot into the destination); with a single resolved base
object the context holds exactly one additional CopyConstraint and the
field's value set equals the stored value set; re-executing the
materialized Store adds nothing (memoized edges). -/
theorem store_load_materialization :
    (storeScenario.dirty = [] ∧
     ctxConstraints storeScenario 0 =
       [Constraint.store (SlotKey.loc 0 "0") (SlotKey.loc 0 "1") "Attribute" (SlotKey.loc 0 "2"),
        Constraint.copy (SlotKey.loc 0 "0")
          (SlotKey.fld 0 (ObjName.const "obj" Qualifier.hz) "Attribute"
            (ObjName.const "name" Qualifier.hz))] ∧
     slotVals storeScenario
       (SlotKey.fld 0 (ObjName.const "obj" Qualifier.hz) "Attribute"
         (ObjName.const "name" Qualifier.hz)) = [ObjName.const "value" Qualifier.hz]) ∧
    (storeScenario2.dirty = [] ∧
     ctxConstraints storeScenario2 0 =
       [Constraint.store (SlotKey.loc 0 "0") (SlotKey.loc 0 "1") "Attribute" (SlotKey.loc 0 "2"),
        Constraint.copy (SlotKey.loc 0 "0")
          (SlotKey.fld 0 (ObjName.const "obj1" Qualifier.hz) "Attribute"
            (ObjName.const "name" Qualifier.hz)),
        Constraint.copy (SlotKey.loc 0 "0")
          (SlotKey.fld 0 (ObjName.const "obj2" Qualifier.hz) "Attribute"
            (ObjName.const "name" Qualifier.hz))] ∧
     slotVals storeScenario2
       (SlotKey.fld 0 (ObjName.const "obj1" Qualifier.hz) "Attribute"
         (ObjName.const "name" Qualifier.hz)) = [ObjName.const "value" Qualifier.hz] ∧
     slotVals storeScenario2
       (SlotKey.fld 0 (ObjName.const "obj2" Qualifier.hz) "Attribute"
         (ObjName.const "name" Qualifier.hz)) = [ObjName.const "value" Qualifier.hz]) ∧
    (loadScenario.dirty = [] ∧
     ctxConstraints loadScenario 0 =
       [Constraint.load (SlotKey.loc 0 "0") "Attribute" (SlotKey.loc 0 "1") (SlotKey.loc 0 "2"),
        Constraint.copy
          (SlotKey.fld 0 (ObjName.const "obj" Qualifier.hz) "Attribute"
            (ObjName.const "name" Qualifier.hz)) (SlotKey.loc 0 "2")] ∧
     slotVals loadScenario (SlotKey.loc 0 "2") = [ObjName.const "value" Qualifier.hz]) ∧
    ((stepN 2 (enqueue storeScenario 0)).constraints = storeScenario.constraints ∧
     (stepN 2 (enqueue storeScenario 0)).slots = storeScenario.slots ∧
     (stepN 2 (enqueue storeScenario 0)).dirty = []) := by
  refine ⟨by decide, by decide, by decide, by decide⟩

/-- C4: `copyDown` is idempotent and memoized — after the first call,
`objForward[o]` is defined and maps `o` to the returned image, and calling
`copyDown` again on the resulting state returns the same image and leaves
the state unchanged. -/
theorem copyDown_idempotent (st : EngineState) (ik : InvKey) (o : ObjName) :
    fwdLookup (copyDown st ik o).1 ik o = some (copyDown st ik o).2 ∧
    copyDown (copyDown st ik o).1 ik o = copyDown st ik o := by
  constructor
  · exact copyDownA_registers _ ik st o
  · exact copyDownA_hit _ ik _ _ _ (copyDownA_registers _ ik st o)

end PyFlowIPA

namespace PFUtil

theorem alist_split {α β : Type} [DecidableEq α] (l : List (α × β)) (k : α) (v : β)
    (h : alistGet l k = some v) :
    ∃ l1 l2, l = l1 ++ (k, v) :: l2 ∧ alistGet l1 k = none ∧
      ∀ w, alistPut l k w = l1 ++ (k, w) :: l2 := by
  induction l with
  | nil => simp [alistGet] at h
  | cons p t ih =>
    by_cases hk : k = p.1
    · refine ⟨[], t, ?_, rfl, ?_⟩
      · have hv : p.2 = v := by
          rw [alistGet, if_pos hk] at h
          exact Option.some.inj h
        have hp : p = (k, v) := by
          rw [hk, ← hv]
        rw [List.nil_append, ← hp]
      · intro w
        rw [alistPut, if_pos hk]
        rfl
    · rw [alistGet, if_neg hk] at h
      obtain ⟨l1, l2, heq, hnone, hput⟩ := ih h
      refine ⟨p :: l1, l2, by rw [heq]; rfl, ?_, ?_⟩
      · rw [alistGet, if_neg hk]
        exact hnone
      · intro w
        rw [alistPut, if_neg hk, hput w]
        rfl

end PFUtil

namespace PyFlowIPA

open PFUtil

end PyFlowIPA

namespace PyFlowIPA

open PFUtil

theorem svL_append (l l' : List (SlotKey × Slot)) : svL (l ++ l') = svL l ∪ svL l' := by
  induction l with
  | nil => simp [svL]
  | cons p t ih =>
    show p.2.values.toFinset ∪ svL (t ++ l') = (p.2.values.toFinset ∪ svL t) ∪ svL l'
    rw [ih, Finset.union_assoc]

theorem svL_cons (p : SlotKey × Slot) (l : List (SlotKey × Slot)) :
    svL (p :: l) = p.2.values.toFinset ∪ svL l := rfl

theorem kfL_append (l l' : List (SlotKey × Slot)) : kfL (l ++ l') = kfL l ∪ kfL l' := by
  induction l with
  | nil => simp [kfL]
  | cons p t ih =>
    show insert p.1 (kfL (t ++ l')) = insert p.1 (kfL t) ∪ kfL l'
    rw [ih, Finset.insert_union]

theorem kfL_cons (p : SlotKey × Slot) (l : List (SlotKey × Slot)) :
    kfL (p :: l) = insert p.1 (kfL l) := rfl

theorem valInsert_toFinset (a : List ObjName) (v : ObjName) :
    (valInsert a v).toFinset = insert v a.toFinset := by
  unfold valInsert
  by_cases h : v ∈ a
  · rw [if_pos h]
    have : v ∈ a.toFinset := List.mem_toFinset.mpr h
    rw [Finset.insert_eq_self.mpr this]
  · rw [if_neg h]
    rw [List.toFinset_append]
    ext y
    simp [or_comm]

theorem valUnion_toFinset (b : List ObjName) :
    ∀ a : List ObjName, (valUnion a b).toFinset = a.toFinset ∪ b.toFinset := by
  induction b with
  | nil => intro a; simp [valUnion]
  | cons v t ih =>
    intro a
    show (valUnion (valInsert a v) t).toFinset = _
    rw [ih, valInsert_toFinset]
    ext x
    simp [or_comm, or_assoc, or_left_comm]

theorem mem_svL (l : List (SlotKey × Slot)) (x : ObjName) :
    x ∈ svL l ↔ ∃ p ∈ l, x ∈ p.2.values := by
  induction l with
  | nil => simp [svL]
  | cons p t ih => simp [svL_cons, ih]

theorem mem_allocObjs (cs : List (Nat × Constraint)) (x : ObjName) :
    x ∈ allocObjs cs ↔ ∃ p ∈ cs, ∃ d, p.2 = Constraint.alloc x d := by
  induction cs with
  | nil => simp [allocObjs]
  | cons p t ih =>
    show x ∈ (match p.2 with
      | Constraint.alloc o _ => insert o (allocObjs t)
      | _ => allocObjs t) ↔ _
    cases hc : p.2 <;> simp [ih, hc] <;> tauto

theorem mem_dstKeys (cs : List (Nat × Constraint)) (k : SlotKey) :
    k ∈ dstKeys cs ↔ ∃ p ∈ cs, dstOf p.2 = some k := by
  induction cs with
  | nil => simp [dstKeys]
  | cons p t ih =>
    show k ∈ (match dstOf p.2 with
      | some d => insert d (dstKeys t)
      | none => dstKeys t) ↔ _
    cases hc : dstOf p.2 with
    | none =>
      rw [ih]
      constructor
      · rintro ⟨q, hq, hq2⟩
        exact ⟨q, List.mem_cons_of_mem p hq, hq2⟩
      · rintro ⟨q, hq, hq2⟩
        rcases List.mem_cons.mp hq with h | h
        · rw [h] at hq2
          rw [hq2] at hc
          cases hc
        · exact ⟨q, h, hq2⟩
    | some d =>
      simp only [Finset.mem_insert, ih]
      constructor
      · rintro (h | ⟨q, hq, hq2⟩)
        · refine ⟨p, List.mem_cons_self p t, ?_⟩
          rw [hc, h]
        · exact ⟨q, List.mem_cons_of_mem p hq, hq2⟩
      · rintro ⟨q, hq, hq2⟩
        rcases List.mem_cons.mp hq with h | h
        · left
          rw [h] at hq2
          exact (Option.some.inj (hc.symm.trans hq2)).symm
        · right
          exact ⟨q, h, hq2⟩

theorem mem_metaFldKeys (cs : List (Nat × Constraint)) (U : Finset ObjName) (k : SlotKey) :
    k ∈ metaFldKeys cs U ↔ ∃ p ∈ cs, k ∈ fldKeysOf p U := by
  induction cs with
  | nil => simp [metaFldKeys]
  | cons p t ih =>
    show k ∈ fldKeysOf p U ∪ metaFldKeys t U ↔ _
    simp [ih]

theorem candsCS_eq (st : EngineState) (cs : List (Nat × Constraint)) (h : st.constraints = cs) :
    candsCS st = cs.foldr (fun p acc => candsOf p (univU st) ∪ acc) ∅ := by
  unfold candsCS
  rw [h]

theorem mem_candsCS (st : EngineState) (x : Nat × Constraint) :
    x ∈ candsCS st ↔ ∃ p ∈ st.constraints, x ∈ candsOf p (univU st) := by
  unfold candsCS
  induction st.constraints with
  | nil => simp
  | cons p t ih => simp [List.foldr_cons, ih]

theorem alistGet_mem {α β : Type} [DecidableEq α] (l : List (α × β)) (k : α) (v : β)
    (h : alistGet l k = some v) : (k, v) ∈ l := by
  induction l with
  | nil => simp [alistGet] at h
  | cons p t ih =>
    by_cases hk : k = p.1
    · rw [alistGet, if_pos hk] at h
      have : p = (k, v) := by
        rw [hk, ← Option.some.inj h]
      rw [← this]
      exact List.mem_cons_self p t
    · rw [alistGet, if_neg hk] at h
      exact List.mem_cons_of_mem p (ih h)

end PyFlowIPA

namespace PFUtil

theorem alistGet_append_none {α β : Type} [DecidableEq α] (l l' : List (α × β)) (k : α)
    (h : alistGet l k = none) : alistGet (l ++ l') k = alistGet l' k := by
  induction l with
  | nil => rfl
  | cons p t ih =>
    by_cases hk : k = p.1
    · rw [alistGet, if_pos hk] at h
      cases h
    · rw [alistGet, if_neg hk] at h
      show alistGet (p :: (t ++ l')) k = _
      rw [alistGet, if_neg hk]
      exact ih h

end PFUtil

namespace PyFlowIPA

open PFUtil

theorem weight_le (st : EngineState) (k : SlotKey) :
    weight st k ≤ (univU st).card + 1 := by
  unfold weight
  cases hm : alistGet st.slots k with
  | none => exact Nat.zero_le _
  | some s =>
    have hmem : (k, s) ∈ st.slots := alistGet_mem _ _ _ hm
    have hsub : s.values.toFinset ⊆ univU st := by
      intro x hx
      have : x ∈ stateValues st := (mem_svL _ _).mpr ⟨(k, s), hmem, List.mem_toFinset.mp hx⟩
      exact Finset.mem_union_left _ (Finset.mem_union_left _ this)
    have := Finset.card_le_card hsub
    show 1 + s.values.toFinset.card ≤ (univU st).card + 1
    omega

theorem addVals_cases (st : EngineState) (k : SlotKey) (vs : List ObjName) :
    addVals st k vs = (st, false) ∨
    ((addVals st k vs).1.constraints = st.constraints ∧
     (addVals st k vs).1.dirty = st.dirty ∧
     (addVals st k vs).1.invokes = st.invokes ∧
     stateValues (addVals st k vs).1 = stateValues st ∪ vs.toFinset ∧
     keysF (addVals st k vs).1 = insert k (keysF st) ∧
     (∀ k', k' ≠ k → alistGet (addVals st k vs).1.slots k' = alistGet st.slots k') ∧
     weight st k < weight (addVals st k vs).1 k) := by
  unfold addVals
  cases hm : alistGet st.slots k with
  | none =>
    right
    refine ⟨rfl, rfl, rfl, ?_, ?_, ?_, ?_⟩
    · show svL (st.slots ++ [(k, ⟨valUnion [] vs, true⟩)]) = svL st.slots ∪ vs.toFinset
      rw [svL_append]
      show svL st.slots ∪ ((valUnion [] vs).toFinset ∪ ∅) = _
      rw [valUnion_toFinset]
      simp
    · show kfL (st.slots ++ [(k, ⟨valUnion [] vs, true⟩)]) = insert k (kfL st.slots)
      rw [kfL_append]
      show kfL st.slots ∪ insert k ∅ = _
      ext x
      simp [or_comm]
    · intro k' hk
      show alistGet (st.slots ++ [(k, ⟨valUnion [] vs, true⟩)]) k' = _
      rw [alistGet_append_single_other _ _ _ _ hk]
    · show weight st k < weight { st with slots := st.slots ++ [(k, ⟨valUnion [] vs, true⟩)] } k
      unfold weight
      rw [hm]
      show 0 < _
      have hg : alistGet (st.slots ++ [(k, (⟨valUnion [] vs, true⟩ : Slot))]) k
          = some ⟨valUnion [] vs, true⟩ := alistGet_append_right _ _ _ hm
      rw [hg]
      show 0 < 1 + (valUnion [] vs).toFinset.card
      omega
  | some s =>
    dsimp only
    by_cases hsub : vs ⊆ s.values
    · left
      rw [if_pos hsub]
    · right
      rw [if_neg hsub]
      obtain ⟨l1, l2, heq, hnone, hput⟩ := alist_split st.slots k s hm
      have hput' := hput ⟨valUnion s.values vs, s.null⟩
      refine ⟨rfl, rfl, rfl, ?_, ?_, ?_, ?_⟩
      · show svL (alistPut st.slots k ⟨valUnion s.values vs, s.null⟩) = svL st.slots ∪ vs.toFinset
        rw [hput', heq, svL_append, svL_append, svL_cons, svL_cons]
        show svL l1 ∪ ((valUnion s.values vs).toFinset ∪ svL l2) = _
        rw [valUnion_toFinset]
        ext x
        simp
        tauto
      · show kfL (alistPut st.slots k ⟨valUnion s.values vs, s.null⟩) = insert k (kfL st.slots)
        rw [hput', heq, kfL_append, kfL_append, kfL_cons, kfL_cons]
        ext x
        simp
      · intro k' hk
        show alistGet (alistPut st.slots k _) k' = _
        rw [alistGet_put_other _ _ _ _ hk]
      · show weight st k < weight { st with slots := alistPut st.slots k _ } k
        unfold weight
        rw [hm]
        show 1 + s.values.toFinset.card < _
        have hg : alistGet (alistPut st.slots k ⟨valUnion s.values vs, s.null⟩) k
            = some ⟨valUnion s.values vs, s.null⟩ := alistGet_put_same _ _ _
        rw [hg]
        show 1 + s.values.toFinset.card < 1 + (valUnion s.values vs).toFinset.card
        rw [valUnion_toFinset]
        have hstrict : s.values.toFinset ⊂ s.values.toFinset ∪ vs.toFinset := by
          refine ⟨Finset.subset_union_left, ?_⟩
          intro hcon
          apply hsub
          intro v hv
          have : v ∈ s.values.toFinset := hcon (Finset.mem_union_right _ (List.mem_toFinset.mpr hv))
          exact List.mem_toFinset.mp this
        have := Finset.card_lt_card hstrict
        omega

end PyFlowIPA

namespace PyFlowIPA

open PFUtil

theorem enqueue_parts (st : EngineState) (i : Nat) :
    (enqueue st i).slots = st.slots ∧ (enqueue st i).constraints = st.constraints ∧
    (enqueue st i).invokes = st.invokes := by
  unfold enqueue
  by_cases h : i ∈ st.dirty
  · rw [if_pos h]
    exact ⟨rfl, rfl, rfl⟩
  · rw [if_neg h]
    exact ⟨rfl, rfl, rfl⟩

theorem enqueueReaders_parts (st : EngineState) (k : SlotKey) :
    (enqueueReaders st k).slots = st.slots ∧ (enqueueReaders st k).constraints = st.constraints ∧
    (enqueueReaders st k).invokes = st.invokes := by
  unfold enqueueReaders
  refine foldl_preserve (fun s : EngineState =>
    s.slots = st.slots ∧ s.constraints = st.constraints ∧ s.invokes = st.invokes) _ ?_ _ _
    ⟨rfl, rfl, rfl⟩
  intro b i hb
  by_cases h : k ∈ readsAt b i
  · rw [if_pos h]
    obtain ⟨h1, h2, h3⟩ := enqueue_parts b i
    exact ⟨h1.trans hb.1, h2.trans hb.2.1, h3.trans hb.2.2⟩
  · rw [if_neg h]
    exact hb

theorem stateValues_congr (st st' : EngineState) (h : st.slots = st'.slots) :
    stateValues st = stateValues st' := by
  unfold stateValues
  rw [h]

theorem keysF_congr (st st' : EngineState) (h : st.slots = st'.slots) :
    keysF st = keysF st' := by
  unfold keysF
  rw [h]

theorem weight_congr (st st' : EngineState) (h : st.slots = st'.slots) (k : SlotKey) :
    weight st k = weight st' k := by
  unfold weight
  rw [h]

theorem univU_congr (st st' : EngineState) (hs : st.slots = st'.slots)
    (hc : st.constraints = st'.constraints) : univU st = univU st' := by
  unfold univU
  rw [stateValues_congr st st' hs, hc]

theorem univKS_congr (st st' : EngineState) (hs : st.slots = st'.slots)
    (hc : st.constraints = st'.constraints) : univKS st = univKS st' := by
  unfold univKS
  rw [univU_congr st st' hs hc, keysF_congr st st' hs, hc]

theorem candsCS_congr (st st' : EngineState) (hs : st.slots = st'.slots)
    (hc : st.constraints = st'.constraints) : candsCS st = candsCS st' := by
  unfold candsCS
  rw [univU_congr st st' hs hc, hc]

theorem addValsNotify_cases (st : EngineState) (k : SlotKey) (vs : List ObjName)
    (hk : k ∈ univKS st) (hvs : vs.toFinset ⊆ univU st) :
    addValsNotify st k vs = st ∨
    ((addValsNotify st k vs).constraints = st.constraints ∧
     univU (addValsNotify st k vs) = univU st ∧
     univKS (addValsNotify st k vs) = univKS st ∧
     candsCS (addValsNotify st k vs) = candsCS st ∧
     (univKS st).sum (weight st) < (univKS st).sum (weight (addValsNotify st k vs))) := by
  rcases addVals_cases st k vs with hno | ⟨hc, hd, hi, hsv, hkf, hoth, hwt⟩
  · left
    unfold addValsNotify
    rw [hno]
    simp
  · right
    set st1 := (addVals st k vs).1 with hst1
    have hparts : (addValsNotify st k vs).slots = st1.slots ∧
        (addValsNotify st k vs).constraints = st1.constraints := by
      unfold addValsNotify
      by_cases hch : (addVals st k vs).2
      · rw [if_pos hch]
        obtain ⟨h1, h2, h3⟩ := enqueueReaders_parts st1 k
        exact ⟨h1, h2⟩
      · rw [if_neg hch]
        exact ⟨rfl, rfl⟩
    obtain ⟨hs1, hc1⟩ := hparts
    have hU1 : univU st1 = univU st := by
      unfold univU
      rw [hc]
      show stateValues st1 ∪ _ ∪ _ = _
      rw [hsv]
      ext x
      have hx := @hvs x
      unfold univU at hx
      simp only [Finset.mem_union] at hx ⊢
      tauto
    have hKS1 : univKS st1 = univKS st := by
      have hk2 := hk
      unfold univKS at hk2
      simp only [Finset.mem_union] at hk2
      unfold univKS
      rw [hc, hU1]
      show _ ∪ keysF st1 = _
      rw [hkf]
      ext x
      simp only [Finset.mem_union, Finset.mem_insert]
      constructor
      · rintro ((h | h) | (h | h))
        · tauto
        · tauto
        · rw [h]
          tauto
        · tauto
      · tauto
    have hCS1 : candsCS st1 = candsCS st := by
      unfold candsCS
      rw [hc, hU1]
    refine ⟨hc1.trans hc, ?_, ?_, ?_, ?_⟩
    · rw [univU_congr (addValsNotify st k vs) st1 hs1 hc1]
      exact hU1
    · rw [univKS_congr (addValsNotify st k vs) st1 hs1 hc1]
      exact hKS1
    · rw [candsCS_congr (addValsNotify st k vs) st1 hs1 hc1]
      exact hCS1
    · have hwts : ∀ k', weight (addValsNotify st k vs) k' = weight st1 k' :=
        weight_congr _ _ hs1
      refine Finset.sum_lt_sum ?_ ⟨k, hk, ?_⟩
      · intro i hi2
        rw [hwts i]
        by_cases hik : i = k
        · rw [hik]
          exact Nat.le_of_lt hwt
        · have heqw : weight st1 i = weight st i := by
            unfold weight
            rw [hoth i hik]
          exact Nat.le_of_eq heqw.symm
      · rw [hwts k]
        exact hwt

theorem foldr_cons_eq_map_append {α β : Type} (f : α → β) (l : List α) (acc : List β) :
    l.foldr (fun a acc2 => f a :: acc2) acc = l.map f ++ acc := by
  induction l with
  | nil => rfl
  | cons a t ih => simp [List.foldr_cons, ih]

theorem mem_pair_foldr {α β γ : Type} (f : α → β → γ) (bs : List α) (ns : List β) (x : γ) :
    x ∈ bs.foldr (fun b acc => ns.foldr (fun nm acc2 => f b nm :: acc2) acc) [] ↔
      ∃ b ∈ bs, ∃ nm ∈ ns, x = f b nm := by
  induction bs with
  | nil => simp
  | cons b t ih =>
    show x ∈ ns.foldr _ (t.foldr _ []) ↔ _
    rw [foldr_cons_eq_map_append]
    simp only [List.mem_append, List.mem_map, ih, List.mem_cons]
    constructor
    · rintro (⟨nm, hnm, rfl⟩ | ⟨b2, hb2, nm, hnm, rfl⟩)
      · exact ⟨b, Or.inl rfl, nm, hnm, rfl⟩
      · exact ⟨b2, Or.inr hb2, nm, hnm, rfl⟩
    · rintro ⟨b2, hb | hb, nm, hnm, rfl⟩
      · rw [hb]
        exact Or.inl ⟨nm, hnm, rfl⟩
      · exact Or.inr ⟨b2, hb, nm, hnm, rfl⟩

theorem mem_storeCands (ctx : Nat) (src : SlotKey) (ft : String) (bvals nvals : List ObjName)
    (x : Nat × Constraint) :
    x ∈ storeCands ctx src ft bvals nvals ↔
      ∃ b ∈ bvals, ∃ nm ∈ nvals, x = (ctx, Constraint.copy src (SlotKey.fld ctx b ft nm)) := by
  unfold storeCands
  exact mem_pair_foldr _ bvals nvals x

theorem mem_loadCands (ctx : Nat) (dst : SlotKey) (ft : String) (bvals nvals : List ObjName)
    (x : Nat × Constraint) :
    x ∈ loadCands ctx dst ft bvals nvals ↔
      ∃ b ∈ bvals, ∃ nm ∈ nvals, x = (ctx, Constraint.copy (SlotKey.fld ctx b ft nm) dst) := by
  unfold loadCands
  exact mem_pair_foldr _ bvals nvals x

theorem mem_checkCands (ctx : Nat) (dst : SlotKey) (ft : String) (bvals nvals : List ObjName)
    (x : Nat × Constraint) :
    x ∈ checkCands ctx dst ft bvals nvals ↔
      ∃ b ∈ bvals, ∃ nm ∈ nvals, x = (ctx, Constraint.ccheck (SlotKey.fld ctx b ft nm) dst) := by
  unfold checkCands
  exact mem_pair_foldr _ bvals nvals x

theorem slotVals_subset_univU (st : EngineState) (k : SlotKey) :
    ∀ x ∈ slotVals st k, x ∈ univU st := by
  intro x hx
  unfold slotVals getSlot at hx
  cases hm : alistGet st.slots k with
  | none =>
    rw [hm] at hx
    simp at hx
  | some s =>
    rw [hm] at hx
    have hmem := alistGet_mem _ _ _ hm
    have hv : x ∈ stateValues st := (mem_svL _ _).mpr ⟨(k, s), hmem, hx⟩
    exact Finset.mem_union_left _ (Finset.mem_union_left _ hv)

theorem checkVals_subset_univU (st : EngineState) (sl : Slot) :
    ∀ x ∈ checkVals sl, x ∈ univU st := by
  intro x hx
  have hb : x = ObjName.pyBool false ∨ x = ObjName.pyBool true := by
    unfold checkVals at hx
    split_ifs at hx <;> simp at hx <;> tauto
  have : x ∈ ({ObjName.pyBool true, ObjName.pyBool false} : Finset ObjName) := by
    rcases hb with h | h <;> simp [h]
  exact Finset.mem_union_right _ this

theorem dst_mem_univKS (st : EngineState) (p : Nat × Constraint) (d : SlotKey)
    (hp : p ∈ st.constraints) (hd : dstOf p.2 = some d) : d ∈ univKS st :=
  Finset.mem_union_left _ (Finset.mem_union_left _ ((mem_dstKeys _ _).mpr ⟨p, hp, hd⟩))

theorem fld_mem_univKS (st : EngineState) (p : Nat × Constraint) (k : SlotKey)
    (hp : p ∈ st.constraints) (hk : k ∈ fldKeysOf p (univU st)) : k ∈ univKS st :=
  Finset.mem_union_left _ (Finset.mem_union_right _ ((mem_metaFldKeys _ _ _).mpr ⟨p, hp, hk⟩))

theorem mem_fldCandsOf (ctx : Nat) (ft : String) (U : Finset ObjName) (b nm : ObjName)
    (hb : b ∈ U) (hn : nm ∈ U) : SlotKey.fld ctx b ft nm ∈ fldCandsOf ctx ft U := by
  unfold fldCandsOf
  exact Finset.mem_image.mpr ⟨(b, nm), Finset.mem_product.mpr ⟨hb, hn⟩, rfl⟩

theorem allocObjs_append (cs cs2 : List (Nat × Constraint)) :
    allocObjs (cs ++ cs2) = allocObjs cs ∪ allocObjs cs2 := by
  ext x
  simp only [mem_allocObjs, List.mem_append, Finset.mem_union]
  constructor
  · rintro ⟨p, h | h, hd⟩
    · exact Or.inl ⟨p, h, hd⟩
    · exact Or.inr ⟨p, h, hd⟩
  · rintro (⟨p, h, hd⟩ | ⟨p, h, hd⟩)
    · exact ⟨p, Or.inl h, hd⟩
    · exact ⟨p, Or.inr h, hd⟩

theorem dstKeys_append (cs cs2 : List (Nat × Constraint)) :
    dstKeys (cs ++ cs2) = dstKeys cs ∪ dstKeys cs2 := by
  ext x
  simp only [mem_dstKeys, List.mem_append, Finset.mem_union]
  constructor
  · rintro ⟨p, h | h, hd⟩
    · exact Or.inl ⟨p, h, hd⟩
    · exact Or.inr ⟨p, h, hd⟩
  · rintro (⟨p, h, hd⟩ | ⟨p, h, hd⟩)
    · exact ⟨p, Or.inl h, hd⟩
    · exact ⟨p, Or.inr h, hd⟩

theorem metaFldKeys_append (cs cs2 : List (Nat × Constraint)) (U : Finset ObjName) :
    metaFldKeys (cs ++ cs2) U = metaFldKeys cs U ∪ metaFldKeys cs2 U := by
  ext x
  simp only [mem_metaFldKeys, List.mem_append, Finset.mem_union]
  constructor
  · rintro ⟨p, h | h, hd⟩
    · exact Or.inl ⟨p, h, hd⟩
    · exact Or.inr ⟨p, h, hd⟩
  · rintro (⟨p, h, hd⟩ | ⟨p, h, hd⟩)
    · exact ⟨p, Or.inl h, hd⟩
    · exact ⟨p, Or.inr h, hd⟩

/-- One materialization either finds the edge already present (exact no-op)
or appends it: Slots untouched, the edge universes unchanged. -/
theorem materialize1_cases (st : EngineState) (cc : Nat × Constraint)
    (hedge : (∃ s d, cc.2 = Constraint.copy s d) ∨ ∃ s d, cc.2 = Constraint.ccheck s d)
    (hdst : ∀ d, dstOf cc.2 = some d → d ∈ univKS st) :
    materialize1 st cc = st ∨
    (cc ∉ st.constraints ∧
     (materialize1 st cc).slots = st.slots ∧
     (materialize1 st cc).invokes = st.invokes ∧
     (materialize1 st cc).constraints = st.constraints ++ [cc] ∧
     univU (materialize1 st cc) = univU st ∧
     univKS (materialize1 st cc) = univKS st ∧
     candsCS (materialize1 st cc) = candsCS st) := by
  unfold materialize1
  by_cases hmem : cc ∈ st.constraints
  · left
    rw [if_pos hmem]
  · right
    rw [if_neg hmem]
    set st2 : EngineState := { st with constraints := st.constraints ++ [cc] } with hst2
    obtain ⟨he1, he2, he3⟩ := enqueue_parts st2 st.constraints.length
    have hs : (enqueue st2 st.constraints.length).slots = st.slots := he1
    have hc : (enqueue st2 st.constraints.length).constraints = st.constraints ++ [cc] := he2
    have hi : (enqueue st2 st.constraints.length).invokes = st.invokes := he3
    have halloc : allocObjs [cc] = ∅ := by
      rcases hedge with ⟨s, d, he⟩ | ⟨s, d, he⟩ <;> simp [allocObjs, he]
    have hfk : ∀ U, fldKeysOf cc U = ∅ := by
      intro U
      rcases hedge with ⟨s, d, he⟩ | ⟨s, d, he⟩ <;> simp [fldKeysOf, he]
    have hcand : ∀ U, candsOf cc U = ∅ := by
      intro U
      rcases hedge with ⟨s, d, he⟩ | ⟨s, d, he⟩ <;> simp [candsOf, he]
    have hU : univU (enqueue st2 st.constraints.length) = univU st := by
      unfold univU
      rw [stateValues_congr _ st hs, hc, allocObjs_append, halloc]
      simp
    have hKS : univKS (enqueue st2 st.constraints.length) = univKS st := by
      unfold univKS
      have hmf : metaFldKeys [cc] (univU st) = ∅ := by
        simp [metaFldKeys, hfk]
      rw [hU, keysF_congr _ st hs, hc, dstKeys_append, metaFldKeys_append, hmf]
      cases hdo : dstOf cc.2 with
      | none =>
        have : dstKeys [cc] = ∅ := by simp [dstKeys, hdo]
        rw [this]
        simp
      | some d =>
        have hd := hdst d hdo
        have hsing : dstKeys [cc] = {d} := by simp [dstKeys, hdo]
        rw [hsing]
        unfold univKS at hd
        simp only [Finset.mem_union] at hd
        ext x
        simp only [Finset.mem_union, Finset.union_empty, Finset.mem_singleton]
        constructor
        · rintro (((h | h) | h) | h)
          · tauto
          · rw [h]
            tauto
          · tauto
          · tauto
        · tauto
    have hCS : candsCS (enqueue st2 st.constraints.length) = candsCS st := by
      ext x
      rw [mem_candsCS, mem_candsCS, hc, hU]
      constructor
      · rintro ⟨p, hp, hx⟩
        rcases List.mem_append.mp hp with h | h
        · exact ⟨p, h, hx⟩
        · have hpc : p = cc := by simpa using h
          rw [hpc, hcand] at hx
          simp at hx
      · rintro ⟨p, hp, hx⟩
        exact ⟨p, List.mem_append.mpr (Or.inl hp), hx⟩
    exact ⟨hmem, hs, hi, hc, hU, hKS, hCS⟩

/-- Folding materialization over a list of candidate concrete edges, all
drawn from the state's edge universe: either the state is returned exactly
(every edge already present) or the constraint set strictly grows inside
the candidate universe while Slots and the universes stay fixed. -/
theorem matFold_cases (l : List (Nat × Constraint)) : ∀ st : EngineState,
    (∀ cc ∈ l, cc ∈ candsCS st) →
    (∀ cc ∈ l, (∃ s d, cc.2 = Constraint.copy s d) ∨ ∃ s d, cc.2 = Constraint.ccheck s d) →
    (∀ cc ∈ l, ∀ d, dstOf cc.2 = some d → d ∈ univKS st) →
    l.foldl materialize1 st = st ∨
    ((l.foldl materialize1 st).slots = st.slots ∧
     (l.foldl materialize1 st).invokes = st.invokes ∧
     univU (l.foldl materialize1 st) = univU st ∧
     univKS (l.foldl materialize1 st) = univKS st ∧
     candsCS (l.foldl materialize1 st) = candsCS st ∧
     st.constraints.toFinset ⊆ (l.foldl materialize1 st).constraints.toFinset ∧
     (l.foldl materialize1 st).constraints.toFinset ⊆ st.constraints.toFinset ∪ candsCS st ∧
     ∃ cc, cc ∈ candsCS st ∧ cc ∉ st.constraints ∧
       cc ∈ (l.foldl materialize1 st).constraints) := by
  induction l with
  | nil =>
    intro st _ _ _
    left
    rfl
  | cons cc t ih =>
    intro st hcands hedges hdsts
    have hfold : (cc :: t).foldl materialize1 st = t.foldl materialize1 (materialize1 st cc) :=
      rfl
    rcases materialize1_cases st cc (hedges cc (List.mem_cons_self cc t))
        (hdsts cc (List.mem_cons_self cc t)) with hno | ⟨hnm, hs, hi, hc, hU, hKS, hCS⟩
    · rw [hfold, hno]
      exact ih st (fun x hx => hcands x (List.mem_cons_of_mem cc hx))
        (fun x hx => hedges x (List.mem_cons_of_mem cc hx))
        (fun x hx => hdsts x (List.mem_cons_of_mem cc hx))
    · right
      rw [hfold]
      set st1 := materialize1 st cc with hst1
      have hsub01 : st.constraints.toFinset ⊆ st1.constraints.toFinset := by
        intro x hx
        rw [hc]
        rw [List.mem_toFinset] at hx ⊢
        exact List.mem_append.mpr (Or.inl hx)
      have hccmem1 : cc ∈ st1.constraints := by
        rw [hc]
        exact List.mem_append.mpr (Or.inr (List.mem_cons_self cc []))
      have hcc0 : cc ∈ candsCS st := hcands cc (List.mem_cons_self cc t)
      have hsub02 : st1.constraints.toFinset ⊆ st.constraints.toFinset ∪ candsCS st := by
        intro x hx
        rw [hc, List.mem_toFinset] at hx
        rcases List.mem_append.mp hx with h | h
        · exact Finset.mem_union_left _ (List.mem_toFinset.mpr h)
        · have : x = cc := by simpa using h
          rw [this]
          exact Finset.mem_union_right _ hcc0
      rcases ih st1 (fun x hx => hCS.symm ▸ hcands x (List.mem_cons_of_mem cc hx))
          (fun x hx => hedges x (List.mem_cons_of_mem cc hx))
          (fun x hx d hd => hKS.symm ▸ hdsts x (List.mem_cons_of_mem cc hx) d hd)
        with hid | ⟨hs2, hi2, hU2, hKS2, hCS2, hsub12, hsub22, _⟩
      · rw [hid]
        exact ⟨hs, hi, hU, hKS, hCS, hsub01, hsub02, cc, hcc0, hnm, hccmem1⟩
      · refine ⟨hs2.trans hs, hi2.trans hi, hU2.trans hU, hKS2.trans hKS, hCS2.trans hCS,
          ?_, ?_, cc, hcc0, hnm, ?_⟩
        · exact fun x hx => hsub12 (hsub01 hx)
        · intro x hx
          rcases Finset.mem_union.mp (hsub22 hx) with h | h
          · exact hsub02 h
          · rw [hCS] at h
            exact Finset.mem_union_right _ h
        · exact List.mem_toFinset.mp (hsub12 (List.mem_toFinset.mpr hccmem1))

theorem sum_weight_le (st : EngineState) :
    (univKS st).sum (weight st) ≤ (univKS st).card * ((univU st).card + 2) := by
  have h := Finset.sum_le_card_nsmul (univKS st) (weight st) ((univU st).card + 2)
    (fun x _ => le_trans (weight_le st x) (by omega))
  simpa [smul_eq_mul] using h

theorem wslack_lt (st st' : EngineState) (hKS : univKS st' = univKS st)
    (hU : univU st' = univU st)
    (hsum : (univKS st).sum (weight st) < (univKS st).sum (weight st')) :
    wslack st' < wslack st := by
  unfold wslack
  rw [hKS, hU]
  have hb := sum_weight_le st'
  rw [hKS, hU] at hb
  exact Nat.sub_lt_sub_left (lt_of_lt_of_le hsum hb) hsum

theorem wslack_congr (st st' : EngineState) (hs : st.slots = st'.slots)
    (hc : st.constraints = st'.constraints) : wslack st = wslack st' := by
  unfold wslack
  rw [univKS_congr st st' hs hc, univU_congr st st' hs hc,
    Finset.sum_congr rfl (fun k _ => weight_congr st st' hs k)]

theorem mu_lt_of_dirty (st st' : EngineState) (hc1 : candsCS st' = candsCS st)
    (hcs : st'.constraints = st.constraints) (hw : wslack st' = wslack st)
    (hd : st'.dirty.length < st.dirty.length) : solverMu st' < solverMu st := by
  unfold solverMu
  rw [hc1, hcs, hw]
  exact Prod.Lex.right _ (Prod.Lex.right _ hd)

theorem mu_lt_of_wslack (st st' : EngineState) (hc1 : candsCS st' = candsCS st)
    (hcs : st'.constraints = st.constraints) (hw : wslack st' < wslack st) :
    solverMu st' < solverMu st := by
  unfold solverMu
  rw [hc1, hcs]
  exact Prod.Lex.right _ (Prod.Lex.left _ _ hw)

theorem metaFold_mu (st : EngineState) (l : List (Nat × Constraint))
    (hcands : ∀ cc ∈ l, cc ∈ candsCS st)
    (hedges : ∀ cc ∈ l, (∃ s d, cc.2 = Constraint.copy s d) ∨ ∃ s d, cc.2 = Constraint.ccheck s d)
    (hdsts : ∀ cc ∈ l, ∀ d, dstOf cc.2 = some d → d ∈ univKS st) :
    l.foldl materialize1 st = st ∨ solverMu (l.foldl materialize1 st) < solverMu st := by
  rcases matFold_cases l st hcands hedges hdsts with
    h | ⟨hs, hi, hU, hKS, hCS, hsub1, hsub2, cc, hccC, hccN, hccM⟩
  · left
    exact h
  · right
    set fd := l.foldl materialize1 st with hfd
    have hsubD : candsCS st \ fd.constraints.toFinset ⊆
        candsCS st \ st.constraints.toFinset := by
      intro x hx
      rw [Finset.mem_sdiff] at hx ⊢
      exact ⟨hx.1, fun hcon => hx.2 (hsub1 hcon)⟩
    have hss : candsCS st \ fd.constraints.toFinset ⊂
        candsCS st \ st.constraints.toFinset :=
      (Finset.ssubset_iff_of_subset hsubD).mpr
        ⟨cc, Finset.mem_sdiff.mpr ⟨hccC, fun hcon => hccN (List.mem_toFinset.mp hcon)⟩,
          fun hcon => (Finset.mem_sdiff.mp hcon).2 (List.mem_toFinset.mpr hccM)⟩
    have hcard : (candsCS fd \ fd.constraints.toFinset).card <
        (candsCS st \ st.constraints.toFinset).card := by
      rw [hCS]
      exact Finset.card_lt_card hss
    unfold solverMu
    exact Prod.Lex.left _ _ hcard

/-- One constraint-effect execution from a state that holds the constraint:
either an exact no-op, or the termination measure strictly drops. -/
theorem execCn_mu (st : EngineState) (ctx : Nat) (c : Constraint)
    (hmem : (ctx, c) ∈ st.constraints) :
    execCn st ctx c = st ∨ solverMu (execCn st ctx c) < solverMu st := by
  have hval : ∀ d vs, d ∈ univKS st → vs.toFinset ⊆ univU st →
      addValsNotify st d vs = st ∨ solverMu (addValsNotify st d vs) < solverMu st := by
    intro d vs hk hvs
    rcases addValsNotify_cases st d vs hk hvs with h | ⟨hc, hU, hKS, hCS, hsum⟩
    · left
      exact h
    · right
      exact mu_lt_of_wslack st _ hCS hc (wslack_lt st _ hKS hU hsum)
  cases c with
  | copy s d =>
    exact hval d (slotVals st s) (dst_mem_univKS st (ctx, Constraint.copy s d) d hmem rfl)
      (fun x hx => slotVals_subset_univU st s x (List.mem_toFinset.mp hx))
  | alloc o d =>
    refine hval d [o] (dst_mem_univKS st (ctx, Constraint.alloc o d) d hmem rfl) ?_
    intro x hx
    have hxo : x = o := by simpa using hx
    rw [hxo]
    exact Finset.mem_union_left _ (Finset.mem_union_right _
      ((mem_allocObjs _ _).mpr ⟨(ctx, Constraint.alloc o d), hmem, d, rfl⟩))
  | ccheck s d =>
    exact hval d (checkVals (getSlot st s))
      (dst_mem_univKS st (ctx, Constraint.ccheck s d) d hmem rfl)
      (fun x hx => checkVals_subset_univU st _ x (List.mem_toFinset.mp hx))
  | store s b ft fn =>
    refine metaFold_mu st _ ?_ ?_ ?_
    · intro cc hcc
      rcases (mem_storeCands ctx s ft _ _ cc).mp hcc with ⟨bo, hbo, nm, hnm, rfl⟩
      refine (mem_candsCS st _).mpr ⟨(ctx, Constraint.store s b ft fn), hmem, ?_⟩
      have hco : candsOf (ctx, Constraint.store s b ft fn) (univU st) =
          (univU st ×ˢ univU st).image
            (fun bn => (ctx, Constraint.copy s (SlotKey.fld ctx bn.1 ft bn.2))) := rfl
      rw [hco]
      exact Finset.mem_image.mpr ⟨(bo, nm), Finset.mem_product.mpr
        ⟨slotVals_subset_univU st b bo hbo, slotVals_subset_univU st fn nm hnm⟩, rfl⟩
    · intro cc hcc
      rcases (mem_storeCands ctx s ft _ _ cc).mp hcc with ⟨bo, hbo, nm, hnm, rfl⟩
      exact Or.inl ⟨s, SlotKey.fld ctx bo ft nm, rfl⟩
    · intro cc hcc d hd
      rcases (mem_storeCands ctx s ft _ _ cc).mp hcc with ⟨bo, hbo, nm, hnm, rfl⟩
      have hde : d = SlotKey.fld ctx bo ft nm := (Option.some.inj hd).symm
      rw [hde]
      refine fld_mem_univKS st (ctx, Constraint.store s b ft fn) _ hmem ?_
      have hfe : fldKeysOf (ctx, Constraint.store s b ft fn) (univU st) =
          fldCandsOf ctx ft (univU st) := rfl
      rw [hfe]
      exact mem_fldCandsOf ctx ft _ bo nm (slotVals_subset_univU st b bo hbo)
        (slotVals_subset_univU st fn nm hnm)
  | load b ft fn d =>
    refine metaFold_mu st _ ?_ ?_ ?_
    · intro cc hcc
      rcases (mem_loadCands ctx d ft _ _ cc).mp hcc with ⟨bo, hbo, nm, hnm, rfl⟩
      refine (mem_candsCS st _).mpr ⟨(ctx, Constraint.load b ft fn d), hmem, ?_⟩
      have hco : candsOf (ctx, Constraint.load b ft fn d) (univU st) =
          (univU st ×ˢ univU st).image
            (fun bn => (ctx, Constraint.copy (SlotKey.fld ctx bn.1 ft bn.2) d)) := rfl
      rw [hco]
      exact Finset.mem_image.mpr ⟨(bo, nm), Finset.mem_product.mpr
        ⟨slotVals_subset_univU st b bo hbo, slotVals_subset_univU st fn nm hnm⟩, rfl⟩
    · intro cc hcc
      rcases (mem_loadCands ctx d ft _ _ cc).mp hcc with ⟨bo, hbo, nm, hnm, rfl⟩
      exact Or.inl ⟨SlotKey.fld ctx bo ft nm, d, rfl⟩
    · intro cc hcc d2 hd2
      rcases (mem_loadCands ctx d ft _ _ cc).mp hcc with ⟨bo, hbo, nm, hnm, rfl⟩
      have hde : d2 = d := (Option.some.inj hd2).symm
      rw [hde]
      exact dst_mem_univKS st (ctx, Constraint.load b ft fn d) d hmem rfl
  | check b ft fn d =>
    refine metaFold_mu st _ ?_ ?_ ?_
    · intro cc hcc
      rcases (mem_checkCands ctx d ft _ _ cc).mp hcc with ⟨bo, hbo, nm, hnm, rfl⟩
      refine (mem_candsCS st _).mpr ⟨(ctx, Constraint.check b ft fn d), hmem, ?_⟩
      have hco : candsOf (ctx, Constraint.check b ft fn d) (univU st) =
          (univU st ×ˢ univU st).image
            (fun bn => (ctx, Constraint.ccheck (SlotKey.fld ctx bn.1 ft bn.2) d)) := rfl
      rw [hco]
      exact Finset.mem_image.mpr ⟨(bo, nm), Finset.mem_product.mpr
        ⟨slotVals_subset_univU st b bo hbo, slotVals_subset_univU st fn nm hnm⟩, rfl⟩
    · intro cc hcc
      rcases (mem_checkCands ctx d ft _ _ cc).mp hcc with ⟨bo, hbo, nm, hnm, rfl⟩
      exact Or.inr ⟨SlotKey.fld ctx bo ft nm, d, rfl⟩
    · intro cc hcc d2 hd2
      rcases (mem_checkCands ctx d ft _ _ cc).mp hcc with ⟨bo, hbo, nm, hnm, rfl⟩
      have hde : d2 = d := (Option.some.inj hd2).symm
      rw [hde]
      exact dst_mem_univKS st (ctx, Constraint.check b ft fn d) d hmem rfl

theorem mem_valUnion (a b : List ObjName) (x : ObjName) :
    x ∈ valUnion a b ↔ x ∈ a ∨ x ∈ b := by
  rw [← List.mem_toFinset, valUnion_toFinset]
  simp

theorem getSlot_congr (st st' : EngineState) (hs : st.slots = st'.slots) (k : SlotKey) :
    getSlot st k = getSlot st' k := by
  unfold getSlot
  rw [hs]

theorem slotVals_eq_of_getSlot (st st' : EngineState) (k : SlotKey)
    (h : getSlot st' k = getSlot st k) : slotVals st' k = slotVals st k := by
  unfold slotVals
  rw [h]

theorem enqueue_dirty_mono (st : EngineState) (i j : Nat) (h : j ∈ st.dirty) :
    j ∈ (enqueue st i).dirty := by
  unfold enqueue
  by_cases hm : i ∈ st.dirty
  · rw [if_pos hm]
    exact h
  · rw [if_neg hm]
    exact List.mem_append.mpr (Or.inl h)

theorem enqueue_self_mem (st : EngineState) (i : Nat) : i ∈ (enqueue st i).dirty := by
  unfold enqueue
  by_cases hm : i ∈ st.dirty
  · rw [if_pos hm]
    exact hm
  · rw [if_neg hm]
    exact List.mem_append.mpr (Or.inr (List.mem_cons_self i []))

theorem readsAt_congr (st st' : EngineState) (hc : st.constraints = st'.constraints) (j : Nat) :
    readsAt st j = readsAt st' j := by
  unfold readsAt
  rw [hc]

theorem enqueueReaders_dirty_mono (st : EngineState) (k : SlotKey) (j : Nat)
    (h : j ∈ st.dirty) : j ∈ (enqueueReaders st k).dirty := by
  unfold enqueueReaders
  refine foldl_preserve (fun s : EngineState => j ∈ s.dirty) _ ?_ _ _ h
  intro b i hb
  by_cases hr : k ∈ readsAt b i
  · rw [if_pos hr]
    exact enqueue_dirty_mono b i j hb
  · rw [if_neg hr]
    exact hb

theorem enqueueReaders_covers (st : EngineState) (k : SlotKey) (j : Nat)
    (hj : j < st.constraints.length) (hr : k ∈ readsAt st j) :
    j ∈ (enqueueReaders st k).dirty := by
  unfold enqueueReaders
  have key : ∀ L : List Nat, ∀ b : EngineState, b.constraints = st.constraints → j ∈ L →
      j ∈ (L.foldl (fun acc i => if k ∈ readsAt acc i then enqueue acc i else acc) b).dirty := by
    intro L
    induction L with
    | nil =>
      intro b _ hmem
      cases hmem
    | cons a t ih =>
      intro b hb hmem
      show j ∈ (t.foldl _ (if k ∈ readsAt b a then enqueue b a else b)).dirty
      rcases List.mem_cons.mp hmem with hja | hjt
      · subst hja
        have hra : k ∈ readsAt b j := by
          rw [readsAt_congr b st hb]
          exact hr
        rw [if_pos hra]
        refine foldl_preserve (fun s : EngineState => j ∈ s.dirty) _ ?_ _ _
          (enqueue_self_mem b j)
        intro b2 i hb2
        by_cases hr2 : k ∈ readsAt b2 i
        · rw [if_pos hr2]
          exact enqueue_dirty_mono b2 i j hb2
        · rw [if_neg hr2]
          exact hb2
      · by_cases hra : k ∈ readsAt b a
        · rw [if_pos hra]
          refine ih (enqueue b a) ?_ hjt
          rw [(enqueue_parts b a).2.1, hb]
        · rw [if_neg hra]
          exact ih b hb hjt
  exact key (List.range st.constraints.length) st rfl (List.mem_range.mpr hj)

/-- Satisfaction is preserved by any state evolution that keeps the
constraint's read Slots intact, only grows value sets, and only grows the
constraint list. -/
theorem Sat_mono (st st' : EngineState) (p : Nat × Constraint)
    (hcmem : ∀ cc, cc ∈ st.constraints → cc ∈ st'.constraints)
    (hreads : ∀ k, k ∈ p.2.reads → getSlot st' k = getSlot st k)
    (hmono : ∀ k x, x ∈ slotVals st k → x ∈ slotVals st' k)
    (hsat : Sat st p) : Sat st' p := by
  obtain ⟨ctx, c⟩ := p
  cases c with
  | copy s d =>
    intro x hx
    rw [slotVals_eq_of_getSlot st st' s (hreads s (by simp [Constraint.reads]))] at hx
    exact hmono d x (hsat hx)
  | alloc o d =>
    exact hmono d o hsat
  | ccheck s d =>
    intro x hx
    rw [hreads s (by simp [Constraint.reads])] at hx
    exact hmono d x (hsat hx)
  | store s b ft fn =>
    intro cc hcc
    rw [slotVals_eq_of_getSlot st st' b (hreads b (by simp [Constraint.reads])),
      slotVals_eq_of_getSlot st st' fn (hreads fn (by simp [Constraint.reads]))] at hcc
    exact hcmem cc (hsat cc hcc)
  | load b ft fn d =>
    intro cc hcc
    rw [slotVals_eq_of_getSlot st st' b (hreads b (by simp [Constraint.reads])),
      slotVals_eq_of_getSlot st st' fn (hreads fn (by simp [Constraint.reads]))] at hcc
    exact hcmem cc (hsat cc hcc)
  | check b ft fn d =>
    intro cc hcc
    rw [slotVals_eq_of_getSlot st st' b (hreads b (by simp [Constraint.reads])),
      slotVals_eq_of_getSlot st st' fn (hreads fn (by simp [Constraint.reads]))] at hcc
    exact hcmem cc (hsat cc hcc)

/-- Anatomy of a notified value write: constraints and invocations are
untouched, other Slots are untouched, the written Slot only grows and ends
up holding the written values, the dirty queue only grows, and either the
write was observationally a no-op on every Slot or every constraint reading
the written Slot has been enqueued. -/
theorem addValsNotify_analysis (st : EngineState) (k : SlotKey) (vs : List ObjName) :
    (addValsNotify st k vs).constraints = st.constraints ∧
    (addValsNotify st k vs).invokes = st.invokes ∧
    (∀ k2, k2 ≠ k → getSlot (addValsNotify st k vs) k2 = getSlot st k2) ∧
    (∀ x, x ∈ slotVals st k → x ∈ slotVals (addValsNotify st k vs) k) ∧
    (∀ x ∈ vs, x ∈ slotVals (addValsNotify st k vs) k) ∧
    (∀ j, j ∈ st.dirty → j ∈ (addValsNotify st k vs).dirty) ∧
    ((∀ k2, getSlot (addValsNotify st k vs) k2 = getSlot st k2) ∨
     (∀ j, j < st.constraints.length → k ∈ readsAt st j →
       j ∈ (addValsNotify st k vs).dirty)) := by
  cases hm : alistGet st.slots k with
  | some s =>
    by_cases hsub : vs ⊆ s.values
    · have he : addValsNotify st k vs = st := by
        unfold addValsNotify addVals
        rw [hm]
        dsimp only
        rw [if_pos hsub]
        rfl
      rw [he]
      refine ⟨rfl, rfl, fun k2 _ => rfl, fun x hx => hx, ?_, fun j hj => hj,
        Or.inl (fun k2 => rfl)⟩
      intro x hx
      show x ∈ slotVals st k
      unfold slotVals getSlot
      rw [hm]
      exact hsub hx
    · have he : addValsNotify st k vs =
          enqueueReaders
            { st with slots := alistPut st.slots k ⟨valUnion s.values vs, s.null⟩ } k := by
        unfold addValsNotify addVals
        rw [hm]
        dsimp only
        rw [if_neg hsub]
        rfl
      rw [he]
      set st1 : EngineState :=
        { st with slots := alistPut st.slots k ⟨valUnion s.values vs, s.null⟩ } with hst1
      obtain ⟨hp1, hp2, hp3⟩ := enqueueReaders_parts st1 k
      have hgs : ∀ k2, getSlot (enqueueReaders st1 k) k2 = getSlot st1 k2 :=
        fun k2 => getSlot_congr _ _ hp1 k2
      have hv : slotVals (enqueueReaders st1 k) k = valUnion s.values vs := by
        unfold slotVals
        rw [hgs k]
        show ((alistGet (alistPut st.slots k ⟨valUnion s.values vs, s.null⟩) k).getD
          ⟨[], true⟩).values = _
        rw [alistGet_put_same]
        rfl
      refine ⟨hp2, hp3, ?_, ?_, ?_, ?_, Or.inr ?_⟩
      · intro k2 hk2
        rw [hgs k2]
        show (alistGet (alistPut st.slots k ⟨valUnion s.values vs, s.null⟩) k2).getD ⟨[], true⟩
          = getSlot st k2
        rw [alistGet_put_other _ _ _ _ hk2]
        rfl
      · intro x hx
        rw [hv, mem_valUnion]
        left
        unfold slotVals getSlot at hx
        rw [hm] at hx
        exact hx
      · intro x hx
        rw [hv, mem_valUnion]
        exact Or.inr hx
      · intro j hj
        exact enqueueReaders_dirty_mono st1 k j hj
      · intro j hjl hjr
        refine enqueueReaders_covers st1 k j hjl ?_
        rw [readsAt_congr st1 st rfl]
        exact hjr
  | none =>
    have hempty : slotVals st k = [] := by
      unfold slotVals getSlot
      rw [hm]
      rfl
    by_cases hvs : vs = []
    · subst hvs
      have he : addValsNotify st k [] =
          { st with slots := st.slots ++ [(k, ⟨valUnion [] [], true⟩)] } := by
        unfold addValsNotify addVals
        rw [hm]
        rfl
      rw [he]
      set st1 : EngineState :=
        { st with slots := st.slots ++ [(k, ⟨valUnion [] [], true⟩)] } with hst1
      have hother : ∀ k2, k2 ≠ k → getSlot st1 k2 = getSlot st k2 := by
        intro k2 hk2
        show (alistGet (st.slots ++ [(k, ⟨valUnion [] [], true⟩)]) k2).getD ⟨[], true⟩
          = getSlot st k2
        rw [alistGet_append_single_other _ _ _ _ hk2]
        rfl
      refine ⟨rfl, rfl, hother, ?_, ?_, fun j hj => hj, Or.inl ?_⟩
      · intro x hx
        rw [hempty] at hx
        cases hx
      · intro x hx
        cases hx
      · intro k2
        by_cases hk2 : k2 = k
        · subst hk2
          show (alistGet (st.slots ++ [(k2, ⟨valUnion [] [], true⟩)]) k2).getD ⟨[], true⟩
            = getSlot st k2
          rw [alistGet_append_right _ _ _ hm]
          unfold getSlot
          rw [hm]
          rfl
        · exact hother k2 hk2
    · have he : addValsNotify st k vs =
          enqueueReaders { st with slots := st.slots ++ [(k, ⟨valUnion [] vs, true⟩)] } k := by
        unfold addValsNotify addVals
        rw [hm]
        dsimp only
        rw [if_pos (by simpa using hvs)]
      rw [he]
      set st1 : EngineState :=
        { st with slots := st.slots ++ [(k, ⟨valUnion [] vs, true⟩)] } with hst1
      obtain ⟨hp1, hp2, hp3⟩ := enqueueReaders_parts st1 k
      have hgs : ∀ k2, getSlot (enqueueReaders st1 k) k2 = getSlot st1 k2 :=
        fun k2 => getSlot_congr _ _ hp1 k2
      have hv : slotVals (enqueueReaders st1 k) k = valUnion [] vs := by
        unfold slotVals
        rw [hgs k]
        show ((alistGet (st.slots ++ [(k, (⟨valUnion [] vs, true⟩ : Slot))]) k).getD
          ⟨[], true⟩).values = _
        rw [alistGet_append_right _ _ _ hm]
        rfl
      refine ⟨hp2, hp3, ?_, ?_, ?_, ?_, Or.inr ?_⟩
      · intro k2 hk2
        rw [hgs k2]
        show (alistGet (st.slots ++ [(k, ⟨valUnion [] vs, true⟩)]) k2).getD ⟨[], true⟩
          = getSlot st k2
        rw [alistGet_append_single_other _ _ _ _ hk2]
        rfl
      · intro x hx
        rw [hempty] at hx
        cases hx
      · intro x hx
        rw [hv, mem_valUnion]
        exact Or.inr hx
      · intro j hj
        exact enqueueReaders_dirty_mono st1 k j hj
      · intro j hjl hjr
        refine enqueueReaders_covers st1 k j hjl ?_
        rw [readsAt_congr st1 st rfl]
        exact hjr

theorem materialize1_parts (st : EngineState) (cc : Nat × Constraint) :
    (materialize1 st cc).slots = st.slots ∧
    (materialize1 st cc).invokes = st.invokes ∧
    (∃ ext, (materialize1 st cc).constraints = st.constraints ++ ext) ∧
    (∀ j, j ∈ st.dirty → j ∈ (materialize1 st cc).dirty) ∧
    (∀ j, st.constraints.length ≤ j → j < (materialize1 st cc).constraints.length →
      j ∈ (materialize1 st cc).dirty) ∧
    cc ∈ (materialize1 st cc).constraints := by
  unfold materialize1
  by_cases hm : cc ∈ st.constraints
  · rw [if_pos hm]
    exact ⟨rfl, rfl, ⟨[], by simp⟩, fun j hj => hj,
      fun j h1 h2 => absurd (lt_of_le_of_lt h1 h2) (lt_irrefl _), hm⟩
  · rw [if_neg hm]
    set st2 : EngineState := { st with constraints := st.constraints ++ [cc] } with hst2
    obtain ⟨he1, he2, he3⟩ := enqueue_parts st2 st.constraints.length
    refine ⟨he1, he3, ⟨[cc], he2⟩, ?_, ?_, ?_⟩
    · intro j hj
      exact enqueue_dirty_mono st2 _ j hj
    · intro j h1 h2
      rw [he2, List.length_append] at h2
      have hj : j = st.constraints.length := by
        simp at h2
        omega
      rw [hj]
      exact enqueue_self_mem st2 _
    · rw [he2]
      exact List.mem_append.mpr (Or.inr (List.mem_cons_self cc []))

theorem matFold_parts (l : List (Nat × Constraint)) : ∀ st : EngineState,
    (l.foldl materialize1 st).slots = st.slots ∧
    (l.foldl materialize1 st).invokes = st.invokes ∧
    (∃ ext, (l.foldl materialize1 st).constraints = st.constraints ++ ext) ∧
    (∀ j, j ∈ st.dirty → j ∈ (l.foldl materialize1 st).dirty) ∧
    (∀ j, st.constraints.length ≤ j → j < (l.foldl materialize1 st).constraints.length →
      j ∈ (l.foldl materialize1 st).dirty) ∧
    (∀ cc ∈ l, cc ∈ (l.foldl materialize1 st).constraints) := by
  induction l with
  | nil =>
    intro st
    exact ⟨rfl, rfl, ⟨[], by simp⟩, fun j hj => hj,
      fun j h1 h2 => absurd (lt_of_le_of_lt h1 h2) (lt_irrefl _), fun cc h => absurd h (by simp)⟩
  | cons cc t ih =>
    intro st
    obtain ⟨m1, m2, ⟨ext1, m3⟩, m4, m5, m6⟩ := materialize1_parts st cc
    obtain ⟨f1, f2, ⟨ext2, f3⟩, f4, f5, f6⟩ := ih (materialize1 st cc)
    have hfold : (cc :: t).foldl materialize1 st = t.foldl materialize1 (materialize1 st cc) :=
      rfl
    rw [hfold]
    have hcsub : ∀ x, x ∈ (materialize1 st cc).constraints →
        x ∈ (t.foldl materialize1 (materialize1 st cc)).constraints := by
      intro x hx
      rw [f3]
      exact List.mem_append.mpr (Or.inl hx)
    refine ⟨f1.trans m1, f2.trans m2, ⟨ext1 ++ ext2, ?_⟩, ?_, ?_, ?_⟩
    · rw [f3, m3, List.append_assoc]
    · intro j hj
      exact f4 j (m4 j hj)
    · intro j h1 h2
      by_cases hlt : j < (materialize1 st cc).constraints.length
      · exact f4 j (m5 j h1 hlt)
      · exact f5 j (le_of_not_lt hlt) h2
    · intro x hx
      rcases List.mem_cons.mp hx with h | h
      · rw [h]
        exact hcsub cc m6
      · exact f6 x h

/-- The worklist invariant is preserved by one solver step: the popped
constraint's effect either establishes its satisfaction or re-enqueues it,
every other clean constraint stays satisfied (its read Slots are untouched
or it is enqueued by the notification), and freshly materialized
constraints are born dirty. -/
theorem SatInv_step (st : EngineState) (hinv : SatInv st) : SatInv (step st) := by
  cases hd : st.dirty with
  | nil =>
    have he : step st = st := by
      unfold step
      rw [hd]
    rw [he]
    exact hinv
  | cons i rest =>
    set st1 : EngineState := { st with dirty := rest } with hst1
    have hstep : step st = match st1.constraints.get? i with
        | none => st1
        | some (ctx, c) => execCn st1 ctx c := by
      unfold step
      rw [hd]
    have hsat1 : ∀ p, Sat st p → Sat st1 p := fun p h =>
      Sat_mono st st1 p (fun cc h2 => h2) (fun k _ => rfl) (fun k x hx => hx) h
    have hpres : ∀ (dk : SlotKey) (vs : List ObjName) (j : Nat) (p : Nat × Constraint),
        st1.constraints.get? j = some p → j ∉ (addValsNotify st1 dk vs).dirty → j ≠ i →
        Sat (addValsNotify st1 dk vs) p := by
      intro dk vs j p hgj hj hji
      obtain ⟨pctx, pc⟩ := p
      obtain ⟨ha1, ha2, hother, hmonok, hvsin, hdmono, hlast⟩ :=
        addValsNotify_analysis st1 dk vs
      have hmono : ∀ k x, x ∈ slotVals st1 k → x ∈ slotVals (addValsNotify st1 dk vs) k := by
        intro k x hx
        by_cases hk : k = dk
        · subst hk
          exact hmonok x hx
        · rw [slotVals_eq_of_getSlot st1 _ k (hother k hk)]
          exact hx
      have hjd1 : j ∉ st1.dirty := fun hcon => hj (hdmono j hcon)
      have hjd : j ∉ st.dirty := by
        rw [hd]
        intro hcon
        rcases List.mem_cons.mp hcon with h | h
        · exact hji h
        · exact hjd1 h
      have hsat0 : Sat st1 (pctx, pc) := hsat1 _ (hinv j _ hgj hjd)
      rcases hlast with hobs | hcov
      · exact Sat_mono st1 _ _ (fun cc h2 => by rw [ha1]; exact h2) (fun k _ => hobs k)
          hmono hsat0
      · by_cases hrd : dk ∈ readsAt st1 j
        · have hjlen : j < st1.constraints.length := (List.get?_eq_some.mp hgj).1
          exact absurd (hcov j hjlen hrd) hj
        · have hrdp : dk ∉ pc.reads := by
            unfold readsAt at hrd
            rw [hgj] at hrd
            exact hrd
          exact Sat_mono st1 _ _ (fun cc h2 => by rw [ha1]; exact h2)
            (fun k hk => hother k (fun he => hrdp (he ▸ hk))) hmono hsat0
    rw [hstep]
    cases hg : st1.constraints.get? i with
    | none =>
      show SatInv st1
      intro j p hgj hj
      by_cases hji : j = i
      · rw [hji] at hgj
        cases hg.symm.trans hgj
      · have hjd : j ∉ st.dirty := by
          rw [hd]
          intro hcon
          rcases List.mem_cons.mp hcon with h | h
          · exact hji h
          · exact hj h
        exact hsat1 p (hinv j p hgj hjd)
    | some pc =>
      obtain ⟨ctx, c⟩ := pc
      have hgi : st1.constraints.get? i = some (ctx, c) := hg
      have hilen : i < st1.constraints.length := (List.get?_eq_some.mp hgi).1
      have hmetaCore : ∀ l : List (Nat × Constraint),
          (∀ st2 : EngineState, st2.slots = st1.slots →
            (∀ cc ∈ l, cc ∈ st2.constraints) → Sat st2 (ctx, c)) →
          SatInv (l.foldl materialize1 st1) := by
        intro l hest
        obtain ⟨f1, f2, ⟨ext, f3⟩, f4, f5, f6⟩ := matFold_parts l st1
        intro j p hgj hj
        have hlen : j < (l.foldl materialize1 st1).constraints.length :=
          (List.get?_eq_some.mp hgj).1
        by_cases hjo : j < st1.constraints.length
        · have hgj1 : st1.constraints.get? j = some p := by
            rw [f3, List.get?_append hjo] at hgj
            exact hgj
          by_cases hji : j = i
          · have hgj2 : st1.constraints.get? i = some p := by
              rw [← hji]
              exact hgj1
            have hpc : p = (ctx, c) := by
              rw [hgi] at hgj2
              exact (Option.some.inj hgj2).symm
            rw [hpc]
            exact hest _ f1 f6
          · have hjd1 : j ∉ st1.dirty := fun hcon => hj (f4 j hcon)
            have hjd : j ∉ st.dirty := by
              rw [hd]
              intro hcon
              rcases List.mem_cons.mp hcon with h | h
              · exact hji h
              · exact hjd1 h
            have hsat0 : Sat st1 p := hsat1 p (hinv j p hgj1 hjd)
            refine Sat_mono st1 _ p ?_ ?_ ?_ hsat0
            · intro cc h2
              rw [f3]
              exact List.mem_append.mpr (Or.inl h2)
            · intro k _
              exact getSlot_congr _ _ f1 k
            · intro k x hx
              rw [slotVals_eq_of_getSlot st1 _ k (getSlot_congr _ _ f1 k)]
              exact hx
        · exact absurd (f5 j (le_of_not_lt hjo) hlen) hj
      cases c with
      | copy s d =>
        show SatInv (addValsNotify st1 d (slotVals st1 s))
        obtain ⟨ha1, ha2, hother, hmonok, hvsin, hdmono, hlast⟩ :=
          addValsNotify_analysis st1 d (slotVals st1 s)
        intro j p hgj hj
        have hgj1 : st1.constraints.get? j = some p := by
          rw [ha1] at hgj
          exact hgj
        by_cases hji : j = i
        · have hgj2 : st1.constraints.get? i = some p := by
            rw [← hji]
            exact hgj1
          have hpc : p = (ctx, Constraint.copy s d) := by
            rw [hgi] at hgj2
            exact (Option.some.inj hgj2).symm
          rw [hpc]
          rcases hlast with hobs | hcov
          · intro x hx
            rw [slotVals_eq_of_getSlot st1 _ s (hobs s)] at hx
            exact hvsin x hx
          · by_cases hrd : d ∈ readsAt st1 i
            · rw [hji] at hj
              exact absurd (hcov i hilen hrd) hj
            · have hsd : s ≠ d := by
                intro hcon
                apply hrd
                unfold readsAt
                rw [hgi]
                show d ∈ Constraint.reads (Constraint.copy s d)
                simp [Constraint.reads, hcon]
              intro x hx
              rw [slotVals_eq_of_getSlot st1 _ s (hother s hsd)] at hx
              exact hvsin x hx
        · exact hpres d (slotVals st1 s) j p hgj1 hj hji
      | alloc o d =>
        show SatInv (addValsNotify st1 d [o])
        obtain ⟨ha1, ha2, hother, hmonok, hvsin, hdmono, hlast⟩ :=
          addValsNotify_analysis st1 d [o]
        intro j p hgj hj
        have hgj1 : st1.constraints.get? j = some p := by
          rw [ha1] at hgj
          exact hgj
        by_cases hji : j = i
        · have hgj2 : st1.constraints.get? i = some p := by
            rw [← hji]
            exact hgj1
          have hpc : p = (ctx, Constraint.alloc o d) := by
            rw [hgi] at hgj2
            exact (Option.some.inj hgj2).symm
          rw [hpc]
          exact hvsin o (List.mem_cons_self o [])
        · exact hpres d [o] j p hgj1 hj hji
      | ccheck s d =>
        show SatInv (addValsNotify st1 d (checkVals (getSlot st1 s)))
        obtain ⟨ha1, ha2, hother, hmonok, hvsin, hdmono, hlast⟩ :=
          addValsNotify_analysis st1 d (checkVals (getSlot st1 s))
        intro j p hgj hj
        have hgj1 : st1.constraints.get? j = some p := by
          rw [ha1] at hgj
          exact hgj
        by_cases hji : j = i
        · have hgj2 : st1.constraints.get? i = some p := by
            rw [← hji]
            exact hgj1
          have hpc : p = (ctx, Constraint.ccheck s d) := by
            rw [hgi] at hgj2
            exact (Option.some.inj hgj2).symm
          rw [hpc]
          rcases hlast with hobs | hcov
          · intro x hx
            rw [hobs s] at hx
            exact hvsin x hx
          · by_cases hrd : d ∈ readsAt st1 i
            · rw [hji] at hj
              exact absurd (hcov i hilen hrd) hj
            · have hsd : s ≠ d := by
                intro hcon
                apply hrd
                unfold readsAt
                rw [hgi]
                show d ∈ Constraint.reads (Constraint.ccheck s d)
                simp [Constraint.reads, hcon]
              intro x hx
              rw [hother s hsd] at hx
              exact hvsin x hx
        · exact hpres d (checkVals (getSlot st1 s)) j p hgj1 hj hji
      | store s b ft fn =>
        show SatInv ((storeCands ctx s ft (slotVals st1 b) (slotVals st1 fn)).foldl
          materialize1 st1)
        refine hmetaCore _ ?_
        intro st2 hs2 hmem2
        intro cc hcc
        have hb2 : slotVals st2 b = slotVals st1 b :=
          slotVals_eq_of_getSlot st1 st2 b (getSlot_congr st2 st1 hs2 b)
        have hf2 : slotVals st2 fn = slotVals st1 fn :=
          slotVals_eq_of_getSlot st1 st2 fn (getSlot_congr st2 st1 hs2 fn)
        rw [hb2, hf2] at hcc
        exact hmem2 cc hcc
      | load b ft fn d =>
        show SatInv ((loadCands ctx d ft (slotVals st1 b) (slotVals st1 fn)).foldl
          materialize1 st1)
        refine hmetaCore _ ?_
        intro st2 hs2 hmem2
        intro cc hcc
        have hb2 : slotVals st2 b = slotVals st1 b :=
          slotVals_eq_of_getSlot st1 st2 b (getSlot_congr st2 st1 hs2 b)
        have hf2 : slotVals st2 fn = slotVals st1 fn :=
          slotVals_eq_of_getSlot st1 st2 fn (getSlot_congr st2 st1 hs2 fn)
        rw [hb2, hf2] at hcc
        exact hmem2 cc hcc
      | check b ft fn d =>
        show SatInv ((checkCands ctx d ft (slotVals st1 b) (slotVals st1 fn)).foldl
          materialize1 st1)
        refine hmetaCore _ ?_
        intro st2 hs2 hmem2
        intro cc hcc
        have hb2 : slotVals st2 b = slotVals st1 b :=
          slotVals_eq_of_getSlot st1 st2 b (getSlot_congr st2 st1 hs2 b)
        have hf2 : slotVals st2 fn = slotVals st1 fn :=
          slotVals_eq_of_getSlot st1 st2 fn (getSlot_congr st2 st1 hs2 fn)
        rw [hb2, hf2] at hcc
        exact hmem2 cc hcc

/-- One solver step strictly decreases the termination measure whenever the
dirty queue is non-empty. -/
theorem step_mu (st : EngineState) (h : st.dirty ≠ []) : solverMu (step st) < solverMu st := by
  cases hd : st.dirty with
  | nil => exact absurd hd h
  | cons i rest =>
    set st1 : EngineState := { st with dirty := rest } with hst1
    have hstep : step st = match st1.constraints.get? i with
        | none => st1
        | some (ctx, c) => execCn st1 ctx c := by
      unfold step
      rw [hd]
    have hmu1 : solverMu st1 < solverMu st := by
      refine mu_lt_of_dirty st st1 (candsCS_congr st1 st rfl rfl) rfl
        (wslack_congr st1 st rfl rfl) ?_
      show rest.length < st.dirty.length
      rw [hd]
      simp
    rw [hstep]
    cases hg : st1.constraints.get? i with
    | none =>
      exact hmu1
    | some pc =>
      obtain ⟨ctx, c⟩ := pc
      show solverMu (execCn st1 ctx c) < solverMu st
      rcases execCn_mu st1 ctx c (List.get?_mem hg) with he | he
      · rw [he]
        exact hmu1
      · exact lt_trans he hmu1

/-- The dirty worklist drains in finitely many steps. -/
theorem dirty_drains (st : EngineState) : ∃ n, (stepN n st).dirty = [] := by
  refine @WellFounded.induction EngineState _
    (InvImage.wf solverMu
      (IsWellFounded.wf : WellFounded (fun a b : Nat ×ₗ (Nat ×ₗ Nat) => a < b)))
    (fun x => ∃ n, (stepN n x).dirty = []) st ?_
  intro x ih
  by_cases hx : x.dirty = []
  · exact ⟨0, hx⟩
  · obtain ⟨n, hn⟩ := ih (step x) (step_mu x hx)
    exact ⟨n + 1, hn⟩

theorem Sat_obs (st st' : EngineState) (hc : st'.constraints = st.constraints)
    (hg : ∀ k, getSlot st' k = getSlot st k) (p : Nat × Constraint) (h : Sat st p) :
    Sat st' p :=
  Sat_mono st st' p (fun cc h2 => by rw [hc]; exact h2) (fun k _ => hg k)
    (fun k x hx => by rw [slotVals_eq_of_getSlot st st' k (hg k)]; exact hx) h

/-- A value write that adds nothing new leaves every Slot observationally
unchanged (at worst an empty Slot is lazily created) and the queues alone. -/
theorem addValsNotify_sat_obs (st : EngineState) (k : SlotKey) (vs : List ObjName)
    (h : vs ⊆ slotVals st k) :
    (addValsNotify st k vs).constraints = st.constraints ∧
    (addValsNotify st k vs).dirty = st.dirty ∧
    (∀ k2, getSlot (addValsNotify st k vs) k2 = getSlot st k2) := by
  cases hm : alistGet st.slots k with
  | some s =>
    have hsub : vs ⊆ s.values := by
      unfold slotVals getSlot at h
      rw [hm] at h
      exact h
    have he : addValsNotify st k vs = st := by
      unfold addValsNotify addVals
      rw [hm]
      dsimp only
      rw [if_pos hsub]
      rfl
    rw [he]
    exact ⟨rfl, rfl, fun k2 => rfl⟩
  | none =>
    have hempty : slotVals st k = [] := by
      unfold slotVals getSlot
      rw [hm]
      rfl
    have hvs : vs = [] := by
      rw [hempty] at h
      exact List.eq_nil_iff_forall_not_mem.mpr (fun a ha => List.not_mem_nil a (h ha))
    subst hvs
    have he : addValsNotify st k [] =
        { st with slots := st.slots ++ [(k, ⟨valUnion [] [], true⟩)] } := by
      unfold addValsNotify addVals
      rw [hm]
      rfl
    rw [he]
    refine ⟨rfl, rfl, ?_⟩
    intro k2
    by_cases hk2 : k2 = k
    · subst hk2
      show (alistGet (st.slots ++ [(k2, ⟨valUnion [] [], true⟩)]) k2).getD ⟨[], true⟩
        = getSlot st k2
      rw [alistGet_append_right _ _ _ hm]
      unfold getSlot
      rw [hm]
      rfl
    · show (alistGet (st.slots ++ [(k, ⟨valUnion [] [], true⟩)]) k2).getD ⟨[], true⟩
        = getSlot st k2
      rw [alistGet_append_single_other _ _ _ _ hk2]
      rfl

/-- Materializing a list of edges that are all already present is an exact
no-op. -/
theorem matFold_noop (l : List (Nat × Constraint)) : ∀ st : EngineState,
    (∀ cc ∈ l, cc ∈ st.constraints) → l.foldl materialize1 st = st := by
  induction l with
  | nil =>
    intro st _
    rfl
  | cons cc t ih =>
    intro st h
    have he : materialize1 st cc = st := by
      unfold materialize1
      rw [if_pos (h cc (List.mem_cons_self cc t))]
    show t.foldl materialize1 (materialize1 st cc) = st
    rw [he]
    exact ih st (fun x hx => h x (List.mem_cons_of_mem cc hx))

/-- A solver step from a state whose constraints are all satisfied changes
no Slot observationally and adds no constraint. -/
theorem step_obs (st : EngineState) (hall : ∀ p ∈ st.constraints, Sat st p) :
    (step st).constraints = st.constraints ∧ (∀ k, getSlot (step st) k = getSlot st k) := by
  cases hd : st.dirty with
  | nil =>
    have he : step st = st := by
      unfold step
      rw [hd]
    rw [he]
    exact ⟨rfl, fun k => rfl⟩
  | cons i rest =>
    set st1 : EngineState := { st with dirty := rest } with hst1
    have hstep : step st = match st1.constraints.get? i with
        | none => st1
        | some (ctx, c) => execCn st1 ctx c := by
      unfold step
      rw [hd]
    rw [hstep]
    cases hg : st1.constraints.get? i with
    | none =>
      exact ⟨rfl, fun k => rfl⟩
    | some pc =>
      obtain ⟨ctx, c⟩ := pc
      show (execCn st1 ctx c).constraints = st.constraints ∧
        ∀ k, getSlot (execCn st1 ctx c) k = getSlot st k
      have hmem : (ctx, c) ∈ st.constraints := List.get?_mem hg
      have hsat : Sat st1 (ctx, c) :=
        Sat_obs st st1 rfl (fun k => rfl) _ (hall _ hmem)
      cases c with
      | copy s d =>
        obtain ⟨h1, h2, h3⟩ := addValsNotify_sat_obs st1 d (slotVals st1 s) hsat
        exact ⟨h1, h3⟩
      | alloc o d =>
        have hsub : [o] ⊆ slotVals st1 d := by
          intro x hx
          have hxo : x = o := by simpa using hx
          rw [hxo]
          exact hsat
        obtain ⟨h1, h2, h3⟩ := addValsNotify_sat_obs st1 d [o] hsub
        exact ⟨h1, h3⟩
      | ccheck s d =>
        obtain ⟨h1, h2, h3⟩ := addValsNotify_sat_obs st1 d (checkVals (getSlot st1 s)) hsat
        exact ⟨h1, h3⟩
      | store s b ft fn =>
        have he : execCn st1 ctx (Constraint.store s b ft fn) = st1 :=
          matFold_noop _ st1 hsat
        rw [he]
        exact ⟨rfl, fun k => rfl⟩
      | load b ft fn d =>
        have he : execCn st1 ctx (Constraint.load b ft fn d) = st1 :=
          matFold_noop _ st1 hsat
        rw [he]
        exact ⟨rfl, fun k => rfl⟩
      | check b ft fn d =>
        have he : execCn st1 ctx (Constraint.check b ft fn d) = st1 :=
          matFold_noop _ st1 hsat
        rw [he]
        exact ⟨rfl, fun k => rfl⟩

theorem stepN_obs (m : Nat) : ∀ st : EngineState, (∀ p ∈ st.constraints, Sat st p) →
    (stepN m st).constraints = st.constraints ∧
    (∀ k, getSlot (stepN m st) k = getSlot st k) := by
  induction m with
  | zero =>
    intro st _
    exact ⟨rfl, fun k => rfl⟩
  | succ m ih =>
    intro st hall
    obtain ⟨hc, hg⟩ := step_obs st hall
    have hall2 : ∀ p ∈ (step st).constraints, Sat (step st) p := by
      intro p hp
      rw [hc] at hp
      exact Sat_obs st (step st) hc hg p (hall p hp)
    obtain ⟨hc2, hg2⟩ := ih (step st) hall2
    exact ⟨hc2.trans hc, fun k => (hg2 k).trans (hg k)⟩

theorem SatInv_stepN (n : Nat) : ∀ st : EngineState, SatInv st → SatInv (stepN n st) := by
  induction n with
  | zero =>
    intro st h
    exact h
  | succ n ih =>
    intro st h
    exact ih (step st) (SatInv_step st h)

theorem buildInput_all_dirty (ops : List (Nat × Constraint)) :
    ∀ st : EngineState, (∀ j, j < st.constraints.length → j ∈ st.dirty) →
    ∀ j, j < (ops.foldl (fun st p => addConstraint st p.1 p.2) st).constraints.length →
      j ∈ (ops.foldl (fun st p => addConstraint st p.1 p.2) st).dirty := by
  induction ops with
  | nil =>
    intro st h j hj
    exact h j hj
  | cons op t ih =>
    intro st h
    refine ih (addConstraint st op.1 op.2) ?_
    intro j hj
    unfold addConstraint at hj ⊢
    set st2 : EngineState := { st with constraints := st.constraints ++ [(op.1, op.2)] }
      with hst2
    rw [(enqueue_parts st2 st.constraints.length).2.1] at hj
    by_cases hjl : j < st.constraints.length
    · exact enqueue_dirty_mono st2 _ j (h j hjl)
    · have hje : j = st.constraints.length := by
        show j = st.constraints.length
        have : j < st.constraints.length + 1 := by
          simpa using hj
        omega
      rw [hje]
      exact enqueue_self_mem st2 _
    
theorem SatInv_buildInput (ops : List (Nat × Constraint)) : SatInv (buildInput ops) := by
  intro j p hgj hj
  have hlen : j < (buildInput ops).constraints.length := (List.get?_eq_some.mp hgj).1
  have hdirty : j ∈ (buildInput ops).dirty := by
    refine buildInput_all_dirty ops ⟨[], [], [], []⟩ ?_ j hlen
    intro j2 hj2
    simp at hj2
  exact absurd hdirty hj

/-- C8: solver termination and fixpoint stability — for any finite input
operation sequence, the worklist solver's dirty queue empties after
finitely many pop-and-execute steps, and the resulting state is a stable
fixpoint: re-running the solver from it (re-marking any set of constraints
dirty and stepping any number of times) materializes no new constraint and
changes no Slot's value set or uninitialized flag. -/
theorem solver_terminates_stable (ops : List (Nat × Constraint)) :
    ∃ n, (stepN n (buildInput ops)).dirty = [] ∧
      ∀ d : List Nat, ∀ mm : Nat, ∀ k : SlotKey,
        (stepN mm (redirty (stepN n (buildInput ops)) d)).constraints
            = (stepN n (buildInput ops)).constraints ∧
        getSlot (stepN mm (redirty (stepN n (buildInput ops)) d)) k
            = getSlot (stepN n (buildInput ops)) k := by
  obtain ⟨n, hn⟩ := dirty_drains (buildInput ops)
  refine ⟨n, hn, ?_⟩
  intro d mm k
  have hinv : SatInv (stepN n (buildInput ops)) :=
    SatInv_stepN n (buildInput ops) (SatInv_buildInput ops)
  have hall : ∀ p ∈ (stepN n (buildInput ops)).constraints, Sat (stepN n (buildInput ops)) p := by
    intro p hp
    obtain ⟨j, hj⟩ := List.get?_of_mem hp
    refine hinv j p hj ?_
    rw [hn]
    simp
  have hallrd : ∀ p ∈ (redirty (stepN n (buildInput ops)) d).constraints,
      Sat (redirty (stepN n (buildInput ops)) d) p := by
    intro p hp
    exact Sat_obs _ _ rfl (fun k2 => rfl) p (hall p hp)
  obtain ⟨hc, hg⟩ := stepN_obs mm (redirty (stepN n (buildInput ops)) d) hallrd
  exact ⟨hc, hg k⟩

theorem addValsNotify_slots (st : EngineState) (k : SlotKey) (vs : List ObjName) :
    (addValsNotify st k vs).slots = (addVals st k vs).1.slots := by
  unfold addValsNotify
  by_cases h : (addVals st k vs).2
  · rw [if_pos h]
    exact (enqueueReaders_parts _ _).1
  · rw [if_neg h]

theorem slotNull_addVals (st : EngineState) (k : SlotKey) (vs : List ObjName) (k2 : SlotKey) :
    slotNull (addVals st k vs).1 k2 = slotNull st k2 := by
  unfold slotNull getSlot addVals
  cases hm : alistGet st.slots k with
  | none =>
    dsimp only
    by_cases hk2 : k2 = k
    · subst hk2
      rw [alistGet_append_right _ _ _ hm, hm]
      rfl
    · rw [alistGet_append_single_other _ _ _ _ hk2]
  | some s =>
    dsimp only
    by_cases hsub : vs ⊆ s.values
    · rw [if_pos hsub]
    · rw [if_neg hsub]
      dsimp only
      by_cases hk2 : k2 = k
      · subst hk2
        rw [alistGet_put_same, hm]
        rfl
      · rw [alistGet_put_other _ _ _ _ hk2]

theorem slotNull_addValsNotify (st : EngineState) (k : SlotKey) (vs : List ObjName)
    (k2 : SlotKey) : slotNull (addValsNotify st k vs) k2 = slotNull st k2 := by
  have h1 : slotNull (addValsNotify st k vs) k2 = slotNull (addVals st k vs).1 k2 := by
    unfold slotNull getSlot
    rw [addValsNotify_slots]
  rw [h1, slotNull_addVals]

theorem slotVals_mono_addValsNotify (st : EngineState) (k : SlotKey) (vs : List ObjName)
    (k2 : SlotKey) : ∀ x ∈ slotVals st k2, x ∈ slotVals (addValsNotify st k vs) k2 := by
  intro x hx
  obtain ⟨ha1, ha2, hother, hmonok, hvsin, hdmono, hlast⟩ := addValsNotify_analysis st k vs
  by_cases hk2 : k2 = k
  · subst hk2
    exact hmonok x hx
  · rw [slotVals_eq_of_getSlot st _ k2 (hother k2 hk2)]
    exact hx

/-- Values only grow and the uninitialized flag never returns to true
across one constraint-effect execution. -/
theorem execCn_slot_mono (st : EngineState) (ctx : Nat) (c : Constraint) (k : SlotKey) :
    (∀ x ∈ slotVals st k, x ∈ slotVals (execCn st ctx c) k) ∧
    (slotNull (execCn st ctx c) k = true → slotNull st k = true) := by
  have hmeta : ∀ l : List (Nat × Constraint),
      (∀ x ∈ slotVals st k, x ∈ slotVals (l.foldl materialize1 st) k) ∧
      (slotNull (l.foldl materialize1 st) k = true → slotNull st k = true) := by
    intro l
    obtain ⟨f1, f2, f3, f4, f5, f6⟩ := matFold_parts l st
    constructor
    · intro x hx
      rw [slotVals_eq_of_getSlot st _ k (getSlot_congr _ _ f1 k)]
      exact hx
    · intro hnull
      have : slotNull (l.foldl materialize1 st) k = slotNull st k := by
        unfold slotNull
        rw [getSlot_congr _ _ f1 k]
      rw [this] at hnull
      exact hnull
  cases c with
  | copy s d =>
    exact ⟨slotVals_mono_addValsNotify st d (slotVals st s) k,
      fun h => (slotNull_addValsNotify st d (slotVals st s) k) ▸ h⟩
  | alloc o d =>
    exact ⟨slotVals_mono_addValsNotify st d [o] k,
      fun h => (slotNull_addValsNotify st d [o] k) ▸ h⟩
  | ccheck s d =>
    exact ⟨slotVals_mono_addValsNotify st d (checkVals (getSlot st s)) k,
      fun h => (slotNull_addValsNotify st d (checkVals (getSlot st s)) k) ▸ h⟩
  | store s b ft fn => exact hmeta _
  | load b ft fn d => exact hmeta _
  | check b ft fn d => exact hmeta _

/-- Values only grow and the uninitialized flag never returns to true
across one solver step. -/
theorem step_slot_mono (st : EngineState) (k : SlotKey) :
    (∀ x ∈ slotVals st k, x ∈ slotVals (step st) k) ∧
    (slotNull (step st) k = true → slotNull st k = true) := by
  cases hd : st.dirty with
  | nil =>
    have he : step st = st := by
      unfold step
      rw [hd]
    rw [he]
    exact ⟨fun x hx => hx, fun h => h⟩
  | cons i rest =>
    set st1 : EngineState := { st with dirty := rest } with hst1
    have hstep : step st = match st1.constraints.get? i with
        | none => st1
        | some (ctx, c) => execCn st1 ctx c := by
      unfold step
      rw [hd]
    rw [hstep]
    cases hg : st1.constraints.get? i with
    | none =>
      exact ⟨fun x hx => hx, fun h => h⟩
    | some pc =>
      obtain ⟨ctx, c⟩ := pc
      show (∀ x ∈ slotVals st k, x ∈ slotVals (execCn st1 ctx c) k) ∧
        (slotNull (execCn st1 ctx c) k = true → slotNull st k = true)
      obtain ⟨h1, h2⟩ := execCn_slot_mono st1 ctx c k
      exact ⟨h1, h2⟩

/-- C1: slot monotonicity — across every solver step and every
constraint-effect execution every Slot's value set only grows (values are
only added, never removed) and the may-be-uninitialized `null` flag never
returns to true; a Slot created by `ensureSlot` or by a first value write
starts with the flag true; and `clearNull` flips the flag of a present
Slot to false and never sets it back. -/
theorem slot_monotonicity :
    (∀ st : EngineState, ∀ k : SlotKey, ∀ x ∈ slotVals st k, x ∈ slotVals (step st) k) ∧
    (∀ st : EngineState, ∀ k : SlotKey, slotNull (step st) k = true → slotNull st k = true) ∧
    (∀ st : EngineState, ∀ ctx : Nat, ∀ c : Constraint, ∀ k : SlotKey,
      ∀ x ∈ slotVals st k, x ∈ slotVals (execCn st ctx c) k) ∧
    (∀ st : EngineState, ∀ ctx : Nat, ∀ c : Constraint, ∀ k : SlotKey,
      slotNull (execCn st ctx c) k = true → slotNull st k = true) ∧
    (∀ st : EngineState, ∀ k : SlotKey, alistGet st.slots k = none →
      slotNull (ensureSlot st k) k = true) ∧
    (∀ st : EngineState, ∀ k : SlotKey, ∀ vs : List ObjName, alistGet st.slots k = none →
      slotNull (addVals st k vs).1 k = true) ∧
    (∀ st : EngineState, ∀ k : SlotKey, ∀ s : Slot, alistGet st.slots k = some s →
      slotNull (clearNull st k) k = false) ∧
    (∀ st : EngineState, ∀ k k2 : SlotKey,
      slotNull (clearNull st k) k2 = true → slotNull st k2 = true) := by
  refine ⟨fun st k => (step_slot_mono st k).1, fun st k => (step_slot_mono st k).2,
    fun st ctx c k => (execCn_slot_mono st ctx c k).1,
    fun st ctx c k => (execCn_slot_mono st ctx c k).2, ?_, ?_, ?_, ?_⟩
  · intro st k hm
    unfold ensureSlot
    rw [hm]
    show slotNull { st with slots := st.slots ++ [(k, ⟨[], true⟩)] } k = true
    unfold slotNull getSlot
    show ((alistGet (st.slots ++ [(k, (⟨[], true⟩ : Slot))]) k).getD ⟨[], true⟩).null = true
    rw [alistGet_append_right _ _ _ hm]
    rfl
  · intro st k vs hm
    rw [slotNull_addVals]
    unfold slotNull getSlot
    rw [hm]
    rfl
  · intro st k s hm
    unfold clearNull
    rw [hm]
    show slotNull { st with slots := alistPut st.slots k ⟨s.values, false⟩ } k = false
    unfold slotNull getSlot
    show ((alistGet (alistPut st.slots k ⟨s.values, false⟩) k).getD ⟨[], true⟩).null = false
    rw [alistGet_put_same]
    rfl
  · intro st k k2
    unfold clearNull
    cases hm : alistGet st.slots k with
    | none =>
      exact fun h => h
    | some s =>
      intro h
      by_cases hk2 : k2 = k
      · subst hk2
        unfold slotNull getSlot at h
        rw [show alistGet
            ({ st with slots := alistPut st.slots k2 ⟨s.values, false⟩ } : EngineState).slots k2
            = some ⟨s.values, false⟩ from alistGet_put_same _ _ _] at h
        cases h
      · unfold slotNull getSlot at h ⊢
        rw [show alistGet
            ({ st with slots := alistPut st.slots k ⟨s.values, false⟩ } : EngineState).slots k2
            = alistGet st.slots k2 from alistGet_put_other _ _ _ _ hk2] at h
        exact h

/-- Concrete instantiation of `slot_monotonicity`. -/
theorem slot_monotonicity_witness :
    ObjName.pyBool true ∈ slotVals
      (step ⟨[(SlotKey.loc 0 "x", ⟨[ObjName.pyBool true], true⟩)],
        [(0, Constraint.copy (SlotKey.loc 0 "x") (SlotKey.loc 0 "y"))], [0], []⟩)
      (SlotKey.loc 0 "x") ∧
    slotNull (clearNull
      (⟨[(SlotKey.loc 0 "x", ⟨[ObjName.pyBool true], true⟩)], [], [], []⟩ : EngineState)
      (SlotKey.loc 0 "x")) (SlotKey.loc 0 "x") = false ∧
    slotNull (ensureSlot
      (⟨[(SlotKey.loc 0 "x", ⟨[ObjName.pyBool true], true⟩)], [], [], []⟩ : EngineState)
      (SlotKey.loc 0 "z")) (SlotKey.loc 0 "z") = true :=
  ⟨slot_monotonicity.1 _ _ _ (by decide),
   slot_monotonicity.2.2.2.2.2.2.1 _ _ ⟨[ObjName.pyBool true], true⟩ (by decide),
   slot_monotonicity.2.2.2.2.1 _ _ (by decide)⟩

end PyFlowIPA
